import Mathlib

/-!
# A Bloom filter over a shared bit store (`bloomfilter/bloom.go`)

Shallow embedding of the package `bloomfilter`:

* the sizing formulas `calculateOptimalSize` and `calculateOptimalHashFunctions`,
  read over the real numbers (the source computes them in `float64`);
* the hash family built by `NewBloomFilter` (FNV-1a, 64 bit, with the seed byte
  written after the data, reduced modulo the bit-array length);
* the bit store behind the Redis client, as explicit state: the bits, the calls
  issued so far and an oracle that says which call fails;
* `NewBloomFilter`, `Add` and `Contains` as state-passing functions over it.
-/

namespace BloomFilter

/-! ## Go values -/

/-- A Go `byte`. -/
abbrev Byte := Fin 256

/-- A Go `error` returned by the store client. -/
abbrev Err := String

/-- How a Go call ends: it returns a value, or it stops with a run-time panic. -/
inductive Outcome (α : Type) where
  | ret (a : α)
  | panic
  deriving Repr, DecidableEq

/-- The conversion `uint64(x)` (and `uint(x)`) of an `int`. -/
def toUint64 (x : Int) : Nat := (x % 2 ^ 64).toNat

/-- The conversion `int64(x)` of a `uint`. -/
def toInt64 (x : Nat) : Int :=
  if x % 2 ^ 64 < 2 ^ 63 then ((x % 2 ^ 64 : Nat) : Int) else ((x % 2 ^ 64 : Nat) : Int) - 2 ^ 64

/-- The conversion `byte(x)` of a non-negative `int`. -/
def toByte (x : Nat) : Byte := ⟨x % 256, Nat.mod_lt _ (by decide)⟩

/-! ## FNV-1a, 64 bit (`hash/fnv`) -/

/-- The FNV offset basis, the state of `fnv.New64a()`. -/
def offset64 : Nat := 14695981039346656037

/-- The FNV prime. -/
def prime64 : Nat := 1099511628211

/-- One round of `(*sum64a).Write`: xor the byte in, multiply by the prime in `uint64`. -/
def fnvStep (h : Nat) (c : Byte) : Nat := ((h ^^^ c.val) * prime64) % 2 ^ 64

/-- The method `(*sum64a).Write` on the hash state `h`. -/
def fnvWrite (h : Nat) (data : List Byte) : Nat := data.foldl fnvStep h

/-- FNV-1a-64 of a byte sequence: `New64a`, one `Write`, `Sum64`. -/
def fnv64a (data : List Byte) : Nat := fnvWrite offset64 data

/-! ## The hash family of `NewBloomFilter` -/

/-- A hash function of the filter; `Outcome.panic` is the integer division by zero. -/
abbrev HashFunc := List Byte → Outcome Nat

/-- The closure stored in `hashFuncs[i]`, for the captured `size` and `seed := i`. -/
def hashFunc (size : Int) (seed : Nat) : HashFunc := fun data =>
  let h := fnvWrite (fnvWrite offset64 data) [toByte seed]
  if toUint64 size = 0 then Outcome.panic else Outcome.ret (h % toUint64 size)

/-- The slice `hashFuncs` after the loop `for i := 0; i < numHashes; i++`. -/
def mkHashFuncs (size : Int) (numHashes : Nat) : List HashFunc :=
  (List.range numHashes).map (hashFunc size)

/-! ## The bit store -/

/-- The contents of the store: which keys exist, and the bit at each offset of each key. -/
structure Store where
  present : String → Bool
  bits : String → Int → Bool

/-- The store after a successful `SETBIT key offset value`: the key exists, and the
addressed bit has the value. -/
def Store.setBit (s : Store) (key : String) (offset : Int) (value : Bool) : Store where
  present := fun k => if k = key then true else s.present k
  bits := fun k o => if k = key ∧ o = offset then value else s.bits k o

/-- A call issued to the store. -/
inductive Call where
  | Ping
  | Exists (key : String)
  | SetBit (key : String) (offset : Int) (value : Bool)
  | GetBit (key : String) (offset : Int)
  deriving Repr, DecidableEq

/-- The client side of the store: its contents, the oracle `faults` giving the error of
the `n`-th call issued (`none`: the call succeeds), and the calls issued so far. -/
structure Client where
  store : Store
  faults : Nat → Option Err
  log : List Call

/-- The error with which the next call fails, if it does. -/
def Client.fault (c : Client) : Option Err := c.faults c.log.length

/-- The client state after a call that leaves the contents alone. -/
def Client.record (c : Client) (call : Call) : Client :=
  { c with log := c.log ++ [call] }

/-- The call `client.Ping(ctx).Err()`. -/
def Client.Ping (c : Client) : Option Err × Client :=
  (c.fault, c.record Call.Ping)

/-- The call `client.Exists(ctx, key).Result()`: the number of existing keys among the one given. -/
def Client.Exists (c : Client) (key : String) : (Int × Option Err) × Client :=
  match c.fault with
  | some e => ((0, some e), c.record (Call.Exists key))
  | none => ((if c.store.present key then 1 else 0, none), c.record (Call.Exists key))

/-- The call `client.SetBit(ctx, key, offset, value).Err()`; a failed call changes nothing. -/
def Client.SetBit (c : Client) (key : String) (offset : Int) (value : Bool) :
    Option Err × Client :=
  match c.fault with
  | some e => (some e, c.record (Call.SetBit key offset value))
  | none =>
    (none, { store := c.store.setBit key offset value, faults := c.faults,
             log := c.log ++ [Call.SetBit key offset value] })

/-- The call `client.GetBit(ctx, key, offset).Result()`; `true` is the bit 1. -/
def Client.GetBit (c : Client) (key : String) (offset : Int) : (Bool × Option Err) × Client :=
  match c.fault with
  | some e => ((false, some e), c.record (Call.GetBit key offset))
  | none => ((c.store.bits key offset, none), c.record (Call.GetBit key offset))

/-! ## The filter -/

/-- The struct `BloomFilter`; the field `client` is the `Client` state passed to each method. -/
structure Filter where
  key : String
  size : Nat
  hashFuncs : List HashFunc

/-- The loop of `Add` over the remaining hash functions. -/
def addLoop (key : String) (item : List Byte) :
    List HashFunc → Client → Outcome (Option Err) × Client
  | [], c => (Outcome.ret none, c)
  | hf :: rest, c =>
    match hf item with
    | Outcome.panic => (Outcome.panic, c)
    | Outcome.ret position =>
      match c.SetBit key (toInt64 position) true with
      | (some e, c1) => (Outcome.ret (some e), c1)
      | (none, c1) => addLoop key item rest c1

/-- The method `(*BloomFilter).Add`. -/
def Add (bf : Filter) (item : List Byte) (c : Client) : Outcome (Option Err) × Client :=
  addLoop bf.key item bf.hashFuncs c

/-- The loop of `Contains` over the remaining hash functions. -/
def containsLoop (key : String) (item : List Byte) :
    List HashFunc → Client → Outcome (Bool × Option Err) × Client
  | [], c => (Outcome.ret (true, none), c)
  | hf :: rest, c =>
    match hf item with
    | Outcome.panic => (Outcome.panic, c)
    | Outcome.ret position =>
      match c.GetBit key (toInt64 position) with
      | ((_, some e), c1) => (Outcome.ret (false, some e), c1)
      | ((bit, none), c1) =>
        if bit = false then (Outcome.ret (false, none), c1)
        else containsLoop key item rest c1

/-- The method `(*BloomFilter).Contains`. -/
def Contains (bf : Filter) (item : List Byte) (c : Client) :
    Outcome (Bool × Option Err) × Client :=
  containsLoop bf.key item bf.hashFuncs c

/-- The loop `for i := uint(0); i < bf.size; i++` of `NewBloomFilter`, with `todo`
iterations left and the counter at `i`. -/
def initLoop (key : String) : Nat → Nat → Client → Option Err × Client
  | 0, _, c => (none, c)
  | todo + 1, i, c =>
    match c.SetBit key (toInt64 i) false with
    | (some e, c1) => (some e, c1)
    | (none, c1) => initLoop key todo (i + 1) c1

/-- The struct built by `NewBloomFilter` for a bit-array length and a number of hashes. -/
def mkFilter (key : String) (size : Int) (numHashes : Nat) : Filter :=
  { key := key, size := toUint64 size, hashFuncs := mkHashFuncs size numHashes }

/-- The body of `NewBloomFilter` after the two sizing calls, on the client `c` connected to
the server at `redisAddr`: `make` panics on a negative length. -/
def newFilter (size numHashes : Int) (key : String) (c : Client) :
    Outcome (Option Filter × Option Err) × Client :=
  if numHashes < 0 then (Outcome.panic, c) else
  let bf := mkFilter key size numHashes.toNat
  match c.Ping with
  | (some e, c1) => (Outcome.ret (none, some e), c1)
  | (none, c1) =>
    match c1.Exists key with
    | ((_, some e), c2) => (Outcome.ret (none, some e), c2)
    | ((exists_, none), c2) =>
      if exists_ = 0 then
        match initLoop key bf.size 0 c2 with
        | (some e, c3) => (Outcome.ret (none, some e), c3)
        | (none, c3) => (Outcome.ret (some bf, none), c3)
      else (Outcome.ret (some bf, none), c2)

/-! ## Sizing, over the reals -/

/-- The formula of `calculateOptimalSize`, with `math.Log`, `math.Pow` and `math.Ceil` read as
the real logarithm, power and ceiling. The source evaluates it in `float64` and converts the
result with `int(...)`: it returns this value where `p > 0`, the ceiling fits in an `int` and the
real quotient is further from an integer than the rounding error, as at `(1000, 0.01)` and
`(1, 2 ^ (-400))`, and at `p = 1`, where the evaluation is exact. Elsewhere (overflow of the
conversion, a quotient within rounding distance of an integer, `p ≤ 0`) the two can differ, and
the properties of the constructor are stated over `newFilter`, for whatever sizes the source
computes. -/
noncomputable def calculateOptimalSize (n : Int) (p : ℝ) : Int :=
  Int.ceil (-1 * (n : ℝ) * Real.log p / (Real.log 2) ^ 2)

/-- The formula of `calculateOptimalHashFunctions`, read over the reals in the same way; the
source returns this value where `n ≠ 0`, the ceiling fits in an `int` and the real product is
further from an integer than the rounding error, as at `(1000, 10000)` and `(1, 578)`, and at
`m = 0`, where the evaluation is exact. -/
noncomputable def calculateOptimalHashFunctions (n m : Int) : Int :=
  Int.ceil ((m : ℝ) / (n : ℝ) * Real.log 2)

/-- The function `NewBloomFilter`, with the two sizing calls read over the reals: the source
runs `newFilter` on the sizes it computes, which are these where the two readings agree. -/
noncomputable def NewBloomFilter (expectedItems : Int) (falsePositiveRate : ℝ)
    (_redisAddr key : String) (c : Client) : Outcome (Option Filter × Option Err) × Client :=
  let size := calculateOptimalSize expectedItems falsePositiveRate
  let numHashes := calculateOptimalHashFunctions expectedItems size
  newFilter size numHashes key c

/-! ## Notions used to state the properties -/

/-- The next `n` calls issued on `c` succeed. -/
def NoFault (c : Client) (n : Nat) : Prop :=
  ∀ i, i < n → c.faults (c.log.length + i) = none

/-- Every call issued on `c` from now on succeeds. -/
def Reliable (c : Client) : Prop :=
  ∀ i, c.faults (c.log.length + i) = none

/-- The store after setting to 1, in turn, the bits of `key` at the given offsets. -/
def Store.setBits (s : Store) (key : String) (offsets : List Int) : Store :=
  offsets.foldl (fun t o => t.setBit key o true) s

/-- The values returned by the leading outcomes of a list, up to the first panic. -/
def returned : List (Outcome Nat) → List Nat
  | Outcome.ret p :: rest => p :: returned rest
  | _ => []

/-- The offsets up to and including the first one whose bit is 0 (all of them if none is). -/
def queried (bit : Int → Bool) (offsets : List Int) : List Int :=
  offsets.take ((offsets.takeWhile bit).length + 1)

/-- The calls `Add(x)` for the items of a list in turn, as long as each returns `nil`. -/
def addAll (bf : Filter) : List (List Byte) → Client → Outcome (Option Err) × Client
  | [], c => (Outcome.ret none, c)
  | x :: rest, c =>
    match Add bf x c with
    | (Outcome.ret none, c1) => addAll bf rest c1
    | r => r

/-! ## Sample data -/

/-- A store without keys, all of whose bits are 0. -/
def emptyStore : Store := ⟨fun _ => false, fun _ _ => false⟩

/-- A client of the empty store on which no call fails. -/
def quietClient : Client := ⟨emptyStore, fun _ => none, []⟩

/-- A client of the empty store whose call number `n` fails with `e`, and no other. -/
def failingAt (n : Nat) (e : Err) : Client :=
  ⟨emptyStore, fun i => if i = n then some e else none, []⟩

/-- A client of the empty store that is unreachable from call number `n` on: every call from
then on fails with `e`. -/
def downFrom (n : Nat) (e : Err) : Client :=
  ⟨emptyStore, fun i => if n ≤ i then some e else none, []⟩

/-- A client of a store in which the key `bloom` exists with bit 0 set, no call failing. -/
def usedClient : Client :=
  ⟨⟨fun k => decide (k = "bloom"), fun k o => decide (k = "bloom" ∧ o = 0)⟩, fun _ => none, []⟩

/-! ## The store -/

theorem Store.eq_iff (s t : Store) :
    s = t ↔ (∀ k, s.present k = t.present k) ∧ ∀ k o, s.bits k o = t.bits k o := by
  constructor
  · rintro rfl
    exact ⟨fun _ => rfl, fun _ _ => rfl⟩
  · rintro ⟨hp, hb⟩
    cases s
    cases t
    simp only [Store.mk.injEq]
    exact ⟨funext hp, funext fun k => funext fun o => hb k o⟩

theorem setBits_nil (s : Store) (key : String) : s.setBits key [] = s := rfl

theorem setBits_cons (s : Store) (key : String) (o : Int) (os : List Int) :
    s.setBits key (o :: os) = (s.setBit key o true).setBits key os := rfl

theorem setBits_bits (key : String) (os : List Int) (s : Store) (k : String) (o : Int) :
    (s.setBits key os).bits k o = if k = key ∧ o ∈ os then true else s.bits k o := by
  induction os generalizing s with
  | nil => simp [setBits_nil]
  | cons a os ih =>
    rw [setBits_cons, ih]
    by_cases hk : k = key <;> by_cases ha : o = a <;> by_cases ho : o ∈ os <;>
      simp [Store.setBit, hk, ha, ho]

theorem setBits_present (key : String) (os : List Int) (s : Store) (k : String) :
    (s.setBits key os).present k = if k = key ∧ os ≠ [] then true else s.present k := by
  induction os generalizing s with
  | nil => simp [setBits_nil]
  | cons a os ih =>
    rw [setBits_cons, ih]
    by_cases hk : k = key <;> by_cases ho : os = [] <;> simp [Store.setBit, hk, ho]

theorem setBits_append (key : String) (os ps : List Int) (s : Store) :
    s.setBits key (os ++ ps) = (s.setBits key os).setBits key ps := by
  simp [Store.setBits, List.foldl_append]

theorem noFault_succ {c : Client} {n : Nat} (h : NoFault c (n + 1)) : c.fault = none := by
  simpa [Client.fault] using h 0 (Nat.succ_pos n)

theorem Reliable.noFault {c : Client} (h : Reliable c) (n : Nat) : NoFault c n :=
  fun i _ => h i

theorem Reliable.fault {c : Client} (h : Reliable c) : c.fault = none := by
  simpa [Client.fault] using h 0

theorem Reliable.mono {c d : Client} (h : Reliable c) (hf : d.faults = c.faults)
    (hl : c.log.length ≤ d.log.length) : Reliable d := by
  intro i
  have := h (d.log.length - c.log.length + i)
  rw [hf]
  rw [← this]
  congr 1
  omega

theorem NoFault.shift {c d : Client} {n m : Nat} (h : NoFault c (m + n)) (hf : d.faults = c.faults)
    (hl : d.log.length = c.log.length + m) : NoFault d n := by
  intro i hi
  have := h (m + i) (by omega)
  rw [hf, hl, Nat.add_assoc]
  exact this

theorem NoFault.le {c : Client} {n m : Nat} (h : NoFault c n) (hm : m ≤ n) : NoFault c m :=
  fun i hi => h i (lt_of_lt_of_le hi hm)

/-! ## The loop of `Add` -/

theorem addLoop_nil (key : String) (item : List Byte) (c : Client) :
    addLoop key item [] c = (Outcome.ret none, c) := rfl

theorem addLoop_panic (key : String) (item : List Byte) (hf : HashFunc) (rest : List HashFunc)
    (c : Client) (h : hf item = Outcome.panic) :
    addLoop key item (hf :: rest) c = (Outcome.panic, c) := by
  simp only [addLoop, h]

theorem addLoop_fault (key : String) (item : List Byte) (hf : HashFunc) (rest : List HashFunc)
    (c : Client) (p : Nat) (e : Err) (h : hf item = Outcome.ret p) (hc : c.fault = some e) :
    addLoop key item (hf :: rest) c =
      (Outcome.ret (some e), c.record (Call.SetBit key (toInt64 p) true)) := by
  simp only [addLoop, h, Client.SetBit, hc]

theorem addLoop_step (key : String) (item : List Byte) (hf : HashFunc) (rest : List HashFunc)
    (c : Client) (p : Nat) (h : hf item = Outcome.ret p) (hc : c.fault = none) :
    addLoop key item (hf :: rest) c =
      addLoop key item rest
        { store := c.store.setBit key (toInt64 p) true, faults := c.faults,
          log := c.log ++ [Call.SetBit key (toInt64 p) true] } := by
  simp only [addLoop, h, Client.SetBit, hc]

theorem addLoop_ok (key : String) (item : List Byte) :
    ∀ (hfs : List HashFunc) (ps : List Nat) (c : Client),
      hfs.map (fun hf => hf item) = ps.map Outcome.ret → NoFault c ps.length →
      addLoop key item hfs c =
        (Outcome.ret none,
          { store := c.store.setBits key (ps.map toInt64), faults := c.faults,
            log := c.log ++ ps.map (fun p => Call.SetBit key (toInt64 p) true) }) := by
  intro hfs
  induction hfs with
  | nil =>
    intro ps c h _
    cases ps with
    | nil => simp [addLoop_nil, setBits_nil]
    | cons p ps => simp at h
  | cons hf rest ih =>
    intro ps c h hn
    cases ps with
    | nil => simp at h
    | cons p ps =>
      simp only [List.map_cons, List.cons.injEq] at h
      rw [addLoop_step key item hf rest c p h.1 (noFault_succ hn)]
      have hn1 : NoFault
          { store := c.store.setBit key (toInt64 p) true, faults := c.faults,
            log := c.log ++ [Call.SetBit key (toInt64 p) true] } ps.length := by
        intro i hi
        have := hn (1 + i) (by simp only [List.length_cons]; omega)
        simpa [Nat.add_assoc] using this
      rw [ih ps _ h.2 hn1]
      simp [setBits_cons]

theorem addLoop_ret_none (key : String) (item : List Byte) :
    ∀ (hfs : List HashFunc) (c d : Client), addLoop key item hfs c = (Outcome.ret none, d) →
      ∃ ps : List Nat, hfs.map (fun hf => hf item) = ps.map Outcome.ret ∧ NoFault c ps.length := by
  intro hfs
  induction hfs with
  | nil => exact fun c d _ => ⟨[], rfl, fun i hi => absurd hi (Nat.not_lt_zero i)⟩
  | cons hf rest ih =>
    intro c d h
    cases hh : hf item with
    | panic => rw [addLoop_panic key item hf rest c hh] at h; simp at h
    | ret p =>
      cases hc : c.fault with
      | some e => rw [addLoop_fault key item hf rest c p e hh hc] at h; simp at h
      | none =>
        rw [addLoop_step key item hf rest c p hh hc] at h
        obtain ⟨ps, hps, hn⟩ := ih _ d h
        refine ⟨p :: ps, by simp [hh, hps], ?_⟩
        intro i hi
        cases i with
        | zero => simpa [Client.fault] using hc
        | succ j =>
          have := hn j (by simpa using hi)
          simp only [List.length_append, List.length_singleton] at this
          rw [← this]
          congr 1
          omega

theorem addLoop_faults (key : String) (item : List Byte) :
    ∀ (hfs : List HashFunc) (c : Client),
      (addLoop key item hfs c).2.faults = c.faults ∧
      c.log.length ≤ (addLoop key item hfs c).2.log.length := by
  intro hfs
  induction hfs with
  | nil => exact fun c => ⟨rfl, le_refl _⟩
  | cons hf rest ih =>
    intro c
    cases hh : hf item with
    | panic => rw [addLoop_panic key item hf rest c hh]; exact ⟨rfl, le_refl _⟩
    | ret p =>
      cases hc : c.fault with
      | some e =>
        rw [addLoop_fault key item hf rest c p e hh hc]
        simp [Client.record]
      | none =>
        rw [addLoop_step key item hf rest c p hh hc]
        obtain ⟨h1, h2⟩ := ih
          { store := c.store.setBit key (toInt64 p) true, faults := c.faults,
            log := c.log ++ [Call.SetBit key (toInt64 p) true] }
        refine ⟨h1, ?_⟩
        simp only [List.length_append, List.length_singleton] at h2
        omega

theorem addLoop_mono (key : String) (item : List Byte) (k : String) (o : Int) :
    ∀ (hfs : List HashFunc) (c : Client), c.store.bits k o = true →
      (addLoop key item hfs c).2.store.bits k o = true := by
  intro hfs
  induction hfs with
  | nil => exact fun c h => h
  | cons hf rest ih =>
    intro c h
    cases hh : hf item with
    | panic => rw [addLoop_panic key item hf rest c hh]; exact h
    | ret p =>
      cases hc : c.fault with
      | some e => rw [addLoop_fault key item hf rest c p e hh hc]; exact h
      | none =>
        rw [addLoop_step key item hf rest c p hh hc]
        apply ih
        simp only [Store.setBit]
        split <;> simp [h]

theorem addLoop_reliable (key : String) (item : List Byte) :
    ∀ (hfs : List HashFunc) (c : Client), Reliable c →
      (addLoop key item hfs c).2.store =
        c.store.setBits key ((returned (hfs.map fun hf => hf item)).map toInt64) := by
  intro hfs
  induction hfs with
  | nil => exact fun c _ => rfl
  | cons hf rest ih =>
    intro c hr
    cases hh : hf item with
    | panic => rw [addLoop_panic key item hf rest c hh]; simp [hh, returned, setBits_nil]
    | ret p =>
      rw [addLoop_step key item hf rest c p hh hr.fault]
      rw [ih { store := c.store.setBit key (toInt64 p) true, faults := c.faults,
               log := c.log ++ [Call.SetBit key (toInt64 p) true] } (hr.mono rfl (by simp))]
      simp [hh, returned, setBits_cons]

/-! ## The loop of `Contains` -/

theorem containsLoop_nil (key : String) (item : List Byte) (c : Client) :
    containsLoop key item [] c = (Outcome.ret (true, none), c) := rfl

theorem containsLoop_panic (key : String) (item : List Byte) (hf : HashFunc)
    (rest : List HashFunc) (c : Client) (h : hf item = Outcome.panic) :
    containsLoop key item (hf :: rest) c = (Outcome.panic, c) := by
  simp only [containsLoop, h]

theorem containsLoop_fault (key : String) (item : List Byte) (hf : HashFunc)
    (rest : List HashFunc) (c : Client) (p : Nat) (e : Err) (h : hf item = Outcome.ret p)
    (hc : c.fault = some e) :
    containsLoop key item (hf :: rest) c =
      (Outcome.ret (false, some e), c.record (Call.GetBit key (toInt64 p))) := by
  simp only [containsLoop, h, Client.GetBit, hc]

theorem containsLoop_zero (key : String) (item : List Byte) (hf : HashFunc)
    (rest : List HashFunc) (c : Client) (p : Nat) (h : hf item = Outcome.ret p)
    (hc : c.fault = none) (hb : c.store.bits key (toInt64 p) = false) :
    containsLoop key item (hf :: rest) c =
      (Outcome.ret (false, none), c.record (Call.GetBit key (toInt64 p))) := by
  simp [containsLoop, h, Client.GetBit, hc, hb]

theorem containsLoop_one (key : String) (item : List Byte) (hf : HashFunc)
    (rest : List HashFunc) (c : Client) (p : Nat) (h : hf item = Outcome.ret p)
    (hc : c.fault = none) (hb : c.store.bits key (toInt64 p) = true) :
    containsLoop key item (hf :: rest) c =
      containsLoop key item rest (c.record (Call.GetBit key (toInt64 p))) := by
  simp [containsLoop, h, Client.GetBit, hc, hb]

theorem queried_nil (bit : Int → Bool) : queried bit [] = [] := rfl

theorem queried_cons_zero (bit : Int → Bool) (o : Int) (os : List Int) (h : bit o = false) :
    queried bit (o :: os) = [o] := by
  simp [queried, List.takeWhile_cons, h]

theorem queried_cons_one (bit : Int → Bool) (o : Int) (os : List Int) (h : bit o = true) :
    queried bit (o :: os) = o :: queried bit os := by
  simp [queried, List.takeWhile_cons, h]

theorem noFault_record {c : Client} {n : Nat} (call : Call) (h : NoFault c (n + 1)) :
    NoFault (c.record call) n := by
  intro i hi
  have := h (1 + i) (by omega)
  simpa [Client.record, Nat.add_assoc] using this

theorem reliable_record {c : Client} (call : Call) (h : Reliable c) :
    Reliable (c.record call) :=
  h.mono rfl (by simp [Client.record])

theorem containsLoop_ok (key : String) (item : List Byte) :
    ∀ (hfs : List HashFunc) (ps : List Nat) (c : Client),
      hfs.map (fun hf => hf item) = ps.map Outcome.ret → NoFault c ps.length →
      containsLoop key item hfs c =
        (Outcome.ret ((ps.map toInt64).all (c.store.bits key), none),
          { store := c.store, faults := c.faults,
            log := c.log ++
              (queried (c.store.bits key) (ps.map toInt64)).map (Call.GetBit key) }) := by
  intro hfs
  induction hfs with
  | nil =>
    intro ps c h _
    cases ps with
    | nil => simp [containsLoop_nil, queried_nil]
    | cons p ps => simp at h
  | cons hf rest ih =>
    intro ps c h hn
    cases ps with
    | nil => simp at h
    | cons p ps =>
      simp only [List.map_cons, List.cons.injEq] at h
      cases hb : c.store.bits key (toInt64 p) with
      | false =>
        rw [containsLoop_zero key item hf rest c p h.1 (noFault_succ hn) hb]
        simp [queried_cons_zero _ _ _ hb, hb, Client.record]
      | true =>
        rw [containsLoop_one key item hf rest c p h.1 (noFault_succ hn) hb]
        rw [ih ps (c.record (Call.GetBit key (toInt64 p))) h.2 (noFault_record _ hn)]
        simp [queried_cons_one _ _ _ hb, hb, Client.record]

theorem containsLoop_set (key : String) (item : List Byte) :
    ∀ (hfs : List HashFunc) (ps : List Nat) (c : Client),
      hfs.map (fun hf => hf item) = ps.map Outcome.ret →
      (∀ p ∈ ps, c.store.bits key (toInt64 p) = true) →
      (containsLoop key item hfs c).1 = Outcome.ret (true, none) ∨
      ∃ e i, i < ps.length ∧ c.faults (c.log.length + i) = some e ∧
        (containsLoop key item hfs c).1 = Outcome.ret (false, some e) := by
  intro hfs
  induction hfs with
  | nil => exact fun ps c _ _ => Or.inl rfl
  | cons hf rest ih =>
    intro ps c h hb
    cases ps with
    | nil => simp at h
    | cons p ps =>
      simp only [List.map_cons, List.cons.injEq] at h
      cases hc : c.fault with
      | some e =>
        rw [containsLoop_fault key item hf rest c p e h.1 hc]
        exact Or.inr ⟨e, 0, by simp, by simpa [Client.fault] using hc, rfl⟩
      | none =>
        rw [containsLoop_one key item hf rest c p h.1 hc (hb p (by simp))]
        rcases ih ps (c.record (Call.GetBit key (toInt64 p))) h.2
            (fun q hq => hb q (by simp [hq])) with h1 | ⟨e, i, hi, hf1, h1⟩
        · exact Or.inl h1
        · refine Or.inr ⟨e, i + 1, by simpa using hi, ?_, h1⟩
          rw [← hf1]
          simp only [Client.record, List.length_append, List.length_singleton]
          congr 1
          omega

theorem containsLoop_same (key : String) (item : List Byte) :
    ∀ (hfs : List HashFunc) (c d : Client), c.store = d.store →
      (∀ i, c.faults (c.log.length + i) = d.faults (d.log.length + i)) →
      (containsLoop key item hfs c).1 = (containsLoop key item hfs d).1 := by
  intro hfs
  induction hfs with
  | nil => exact fun c d _ _ => rfl
  | cons hf rest ih =>
    intro c d hs hcd
    have hfault : c.fault = d.fault := by simpa [Client.fault] using hcd 0
    have hnext : ∀ call i, (c.record call).faults ((c.record call).log.length + i) =
        (d.record call).faults ((d.record call).log.length + i) := by
      intro call i
      have := hcd (1 + i)
      simpa [Client.record, Nat.add_assoc] using this
    cases hh : hf item with
    | panic => rw [containsLoop_panic key item hf rest c hh, containsLoop_panic key item hf rest d hh]
    | ret p =>
      cases hc : c.fault with
      | some e =>
        rw [containsLoop_fault key item hf rest c p e hh hc,
          containsLoop_fault key item hf rest d p e hh (hfault ▸ hc)]
      | none =>
        cases hb : c.store.bits key (toInt64 p) with
        | false =>
          rw [containsLoop_zero key item hf rest c p hh hc hb,
            containsLoop_zero key item hf rest d p hh (hfault ▸ hc) (hs ▸ hb)]
        | true =>
          rw [containsLoop_one key item hf rest c p hh hc hb,
            containsLoop_one key item hf rest d p hh (hfault ▸ hc) (hs ▸ hb)]
          exact ih _ _ hs (hnext _)

theorem containsLoop_congr (key : String) (item : List Byte) (hfs : List HashFunc)
    (c d : Client) (hs : c.store = d.store) (hc : Reliable c) (hd : Reliable d) :
    (containsLoop key item hfs c).1 = (containsLoop key item hfs d).1 :=
  containsLoop_same key item hfs c d hs fun i => (hc i).trans (hd i).symm

theorem containsLoop_store (key : String) (item : List Byte) :
    ∀ (hfs : List HashFunc) (c : Client), (containsLoop key item hfs c).2.store = c.store := by
  intro hfs
  induction hfs with
  | nil => exact fun c => rfl
  | cons hf rest ih =>
    intro c
    cases hh : hf item with
    | panic => rw [containsLoop_panic key item hf rest c hh]
    | ret p =>
      cases hc : c.fault with
      | some e => rw [containsLoop_fault key item hf rest c p e hh hc]; rfl
      | none =>
        cases hb : c.store.bits key (toInt64 p) with
        | false => rw [containsLoop_zero key item hf rest c p hh hc hb]; rfl
        | true => rw [containsLoop_one key item hf rest c p hh hc hb, ih]; rfl

theorem queried_first_zero (bit : Int → Bool) :
    ∀ (os : List Int) (j : Nat) (oj : Int), os[j]? = some oj → bit oj = false →
      (∀ i o, i < j → os[i]? = some o → bit o = true) → queried bit os = os.take (j + 1) := by
  intro os
  induction os with
  | nil => intro j oj h; simp at h
  | cons a os ih =>
    intro j oj hj hz hb
    cases j with
    | zero =>
      simp only [List.getElem?_cons_zero, Option.some.injEq] at hj
      subst hj
      simp [queried_cons_zero bit a os hz]
    | succ j =>
      have ha : bit a = true := hb 0 a (Nat.succ_pos j) (by simp)
      rw [queried_cons_one bit a os ha, List.take_succ_cons]
      congr 1
      apply ih j oj (by simpa using hj) hz
      intro i o hi ho
      exact hb (i + 1) o (by omega) (by simpa using ho)

theorem queried_all_one (bit : Int → Bool) :
    ∀ os : List Int, (∀ o ∈ os, bit o = true) → queried bit os = os := by
  intro os
  induction os with
  | nil => exact fun _ => rfl
  | cons a os ih =>
    intro h
    rw [queried_cons_one bit a os (h a (by simp)), ih fun o ho => h o (by simp [ho])]

/-! ## Sequences of `Add` -/

theorem addAll_cons_ok (bf : Filter) (x : List Byte) (rest : List (List Byte)) (c d : Client)
    (h : addAll bf (x :: rest) c = (Outcome.ret none, d)) :
    Add bf x c = (Outcome.ret none, (Add bf x c).2) ∧
      addAll bf rest (Add bf x c).2 = (Outcome.ret none, d) := by
  rcases hA : Add bf x c with ⟨r, cx⟩
  rw [addAll, hA] at h
  cases r with
  | panic => simp at h
  | ret o =>
    cases o with
    | some e => simp at h
    | none => exact ⟨rfl, by simpa using h⟩

theorem addAll_mono (bf : Filter) (k : String) (o : Int) :
    ∀ (xs : List (List Byte)) (c : Client), c.store.bits k o = true →
      (addAll bf xs c).2.store.bits k o = true := by
  intro xs
  induction xs with
  | nil => exact fun c h => h
  | cons x rest ih =>
    intro c h
    have hm := addLoop_mono bf.key x k o bf.hashFuncs c h
    rcases hA : Add bf x c with ⟨r, cx⟩
    have hcx : cx.store.bits k o = true := by
      have : (Add bf x c).2 = cx := by rw [hA]
      rw [← this]
      exact hm
    rw [addAll, hA]
    cases r with
    | panic => exact hcx
    | ret e =>
      cases e with
      | some e => exact hcx
      | none => exact ih cx hcx

theorem reliable_add (bf : Filter) (x : List Byte) (c : Client) (h : Reliable c) :
    Reliable (Add bf x c).2 :=
  h.mono (addLoop_faults bf.key x bf.hashFuncs c).1 (addLoop_faults bf.key x bf.hashFuncs c).2

theorem add_store_reliable (bf : Filter) (x : List Byte) (c : Client) (h : Reliable c) :
    (Add bf x c).2.store =
      c.store.setBits bf.key ((returned (bf.hashFuncs.map fun hf => hf x)).map toInt64) :=
  addLoop_reliable bf.key x bf.hashFuncs c h

/-! ## The hash family -/

theorem toUint64_of_nonneg (size : Int) (h0 : 0 ≤ size) (h2 : size < 2 ^ 64) :
    toUint64 size = size.toNat := by
  rw [toUint64, Int.emod_eq_of_lt h0 h2]

theorem toInt64_of_lt (p : Nat) (h : p < 2 ^ 63) : toInt64 p = (p : Int) := by
  have h64 : p % 2 ^ 64 = p := Nat.mod_eq_of_lt (lt_trans h (by norm_num))
  rw [toInt64, h64, if_pos h]

theorem fnvWrite_append (h : Nat) (data more : List Byte) :
    fnvWrite (fnvWrite h data) more = fnvWrite h (data ++ more) := by
  simp [fnvWrite, List.foldl_append]

theorem hashFunc_eq (size : Int) (seed : Nat) (data : List Byte) (h1 : 1 ≤ size)
    (h2 : size < 2 ^ 63) :
    hashFunc size seed data = Outcome.ret (fnv64a (data ++ [toByte seed]) % size.toNat) := by
  have hu : toUint64 size = size.toNat :=
    toUint64_of_nonneg size (by omega) (lt_trans h2 (by norm_num))
  have hne : size.toNat ≠ 0 := by omega
  simp only [hashFunc, hu, fnvWrite_append, fnv64a]
  rw [if_neg hne]

theorem mkHashFuncs_get (size : Int) (k i : Nat) (hi : i < k) :
    (mkHashFuncs size k)[i]? = some (hashFunc size i) := by
  simp [mkHashFuncs, List.getElem?_map, List.getElem?_range hi]

theorem mem_mkHashFuncs (size : Int) (k : Nat) (hf : HashFunc) (h : hf ∈ mkHashFuncs size k) :
    ∃ i, i < k ∧ hf = hashFunc size i := by
  simp only [mkHashFuncs, List.mem_map, List.mem_range] at h
  obtain ⟨i, hi, rfl⟩ := h
  exact ⟨i, hi, rfl⟩

theorem addLoop_calls (key : String) (item : List Byte) :
    ∀ (hfs : List HashFunc) (c : Client),
      ∃ qs : List Nat, (∀ p ∈ qs, ∃ hf ∈ hfs, hf item = Outcome.ret p) ∧
        (addLoop key item hfs c).2.log =
          c.log ++ qs.map (fun p => Call.SetBit key (toInt64 p) true) := by
  intro hfs
  induction hfs with
  | nil => exact fun c => ⟨[], by simp, by simp [addLoop_nil]⟩
  | cons hf rest ih =>
    intro c
    cases hh : hf item with
    | panic => exact ⟨[], by simp, by simp [addLoop_panic key item hf rest c hh]⟩
    | ret p =>
      cases hc : c.fault with
      | some e =>
        refine ⟨[p], ?_, by simp [addLoop_fault key item hf rest c p e hh hc, Client.record]⟩
        intro q hq
        simp only [List.mem_singleton] at hq
        subst hq
        exact ⟨hf, by simp, hh⟩
      | none =>
        obtain ⟨qs, hqs, hlog⟩ := ih
          { store := c.store.setBit key (toInt64 p) true, faults := c.faults,
            log := c.log ++ [Call.SetBit key (toInt64 p) true] }
        refine ⟨p :: qs, ?_, ?_⟩
        · intro q hq
          rcases List.mem_cons.mp hq with rfl | hq
          · exact ⟨hf, by simp, hh⟩
          · obtain ⟨g, hg, hgq⟩ := hqs q hq
            exact ⟨g, by simp [hg], hgq⟩
        · rw [addLoop_step key item hf rest c p hh hc, hlog]
          simp

theorem containsLoop_calls (key : String) (item : List Byte) :
    ∀ (hfs : List HashFunc) (c : Client),
      ∃ qs : List Nat, (∀ p ∈ qs, ∃ hf ∈ hfs, hf item = Outcome.ret p) ∧
        (containsLoop key item hfs c).2.log =
          c.log ++ qs.map (fun p => Call.GetBit key (toInt64 p)) := by
  intro hfs
  induction hfs with
  | nil => exact fun c => ⟨[], by simp, by simp [containsLoop_nil]⟩
  | cons hf rest ih =>
    intro c
    cases hh : hf item with
    | panic => exact ⟨[], by simp, by simp [containsLoop_panic key item hf rest c hh]⟩
    | ret p =>
      have hmem : ∀ q ∈ [p], ∃ g ∈ hf :: rest, g item = Outcome.ret q := by
        intro q hq
        simp only [List.mem_singleton] at hq
        subst hq
        exact ⟨hf, by simp, hh⟩
      cases hc : c.fault with
      | some e =>
        exact ⟨[p], hmem,
          by simp [containsLoop_fault key item hf rest c p e hh hc, Client.record]⟩
      | none =>
        cases hb : c.store.bits key (toInt64 p) with
        | false =>
          exact ⟨[p], hmem,
            by simp [containsLoop_zero key item hf rest c p hh hc hb, Client.record]⟩
        | true =>
          obtain ⟨qs, hqs, hlog⟩ := ih (c.record (Call.GetBit key (toInt64 p)))
          refine ⟨p :: qs, ?_, ?_⟩
          · intro q hq
            rcases List.mem_cons.mp hq with rfl | hq
            · exact ⟨hf, by simp, hh⟩
            · obtain ⟨g, hg, hgq⟩ := hqs q hq
              exact ⟨g, by simp [hg], hgq⟩
          · rw [containsLoop_one key item hf rest c p hh hc hb, hlog]
            simp [Client.record]

theorem addLoop_no_panic (key : String) (item : List Byte) :
    ∀ (hfs : List HashFunc) (c : Client), (∀ hf ∈ hfs, hf item ≠ Outcome.panic) →
      (addLoop key item hfs c).1 ≠ Outcome.panic := by
  intro hfs
  induction hfs with
  | nil => intro c _; simp [addLoop_nil]
  | cons hf rest ih =>
    intro c h
    cases hh : hf item with
    | panic => exact absurd hh (h hf (by simp))
    | ret p =>
      cases hc : c.fault with
      | some e => simp [addLoop_fault key item hf rest c p e hh hc]
      | none =>
        rw [addLoop_step key item hf rest c p hh hc]
        exact ih _ fun g hg => h g (by simp [hg])

theorem containsLoop_no_panic (key : String) (item : List Byte) :
    ∀ (hfs : List HashFunc) (c : Client), (∀ hf ∈ hfs, hf item ≠ Outcome.panic) →
      (containsLoop key item hfs c).1 ≠ Outcome.panic := by
  intro hfs
  induction hfs with
  | nil => intro c _; simp [containsLoop_nil]
  | cons hf rest ih =>
    intro c h
    cases hh : hf item with
    | panic => exact absurd hh (h hf (by simp))
    | ret p =>
      cases hc : c.fault with
      | some e => simp [containsLoop_fault key item hf rest c p e hh hc]
      | none =>
        cases hb : c.store.bits key (toInt64 p) with
        | false => simp [containsLoop_zero key item hf rest c p hh hc hb]
        | true =>
          rw [containsLoop_one key item hf rest c p hh hc hb]
          exact ih _ fun g hg => h g (by simp [hg])

/-! ## Sizing -/

theorem calculateOptimalSize_one (n : Int) : calculateOptimalSize n 1 = 0 := by
  simp [calculateOptimalSize]

theorem calculateOptimalHashFunctions_zero (n : Int) : calculateOptimalHashFunctions n 0 = 0 := by
  simp [calculateOptimalHashFunctions]

/-! ## The constructor -/

theorem initLoop_zero (key : String) (i : Nat) (c : Client) : initLoop key 0 i c = (none, c) :=
  rfl

theorem initLoop_fault (key : String) (todo i : Nat) (c : Client) (e : Err)
    (hc : c.fault = some e) :
    initLoop key (todo + 1) i c = (some e, c.record (Call.SetBit key (toInt64 i) false)) := by
  simp only [initLoop, Client.SetBit, hc]

theorem initLoop_step (key : String) (todo i : Nat) (c : Client) (hc : c.fault = none) :
    initLoop key (todo + 1) i c =
      initLoop key todo (i + 1)
        { store := c.store.setBit key (toInt64 i) false, faults := c.faults,
          log := c.log ++ [Call.SetBit key (toInt64 i) false] } := by
  simp only [initLoop, Client.SetBit, hc]

theorem initLoop_error (key : String) :
    ∀ (todo i : Nat) (c : Client) (e : Err), (initLoop key todo i c).1 = some e →
      ∃ n, c.faults (c.log.length + n) = some e := by
  intro todo
  induction todo with
  | zero => intro i c e h; simp [initLoop_zero] at h
  | succ todo ih =>
    intro i c e h
    cases hc : c.fault with
    | some e1 =>
      rw [initLoop_fault key todo i c e1 hc] at h
      simp only [Option.some.injEq] at h
      subst h
      exact ⟨0, by simpa [Client.fault] using hc⟩
    | none =>
      rw [initLoop_step key todo i c hc] at h
      obtain ⟨n, hn⟩ := ih _ _ e h
      refine ⟨1 + n, ?_⟩
      simpa [Nat.add_assoc] using hn

theorem initLoop_run (key : String) :
    ∀ (todo i : Nat) (c : Client), NoFault c todo →
      (initLoop key todo i c).1 = none ∧
      (initLoop key todo i c).2.faults = c.faults ∧
      (initLoop key todo i c).2.log =
        c.log ++ (List.range' i todo).map (fun j : Nat => Call.SetBit key (toInt64 j) false) ∧
      (∀ j, i ≤ j → j < i + todo →
        (initLoop key todo i c).2.store.bits key (toInt64 j) = false) ∧
      ∀ k o, (k = key → ∀ j, i ≤ j → j < i + todo → toInt64 j ≠ o) →
        (initLoop key todo i c).2.store.bits k o = c.store.bits k o := by
  intro todo
  induction todo with
  | zero =>
    intro i c _
    refine ⟨rfl, rfl, by simp [initLoop_zero], ?_, fun _ _ _ => rfl⟩
    intro j h1 h2
    omega
  | succ todo ih =>
    intro i c hn
    rw [initLoop_step key todo i c (noFault_succ hn)]
    have hn1 : NoFault
        { store := c.store.setBit key (toInt64 i) false, faults := c.faults,
          log := c.log ++ [Call.SetBit key (toInt64 i) false] } todo := by
      intro j hj
      have := hn (1 + j) (by omega)
      simpa [Nat.add_assoc] using this
    obtain ⟨h1, h2, h3, h4, h5⟩ := ih (i + 1) _ hn1
    refine ⟨h1, h2, ?_, ?_, ?_⟩
    · rw [h3]
      simp [List.range'_succ]
    · intro j hj1 hj2
      by_cases hji : i + 1 ≤ j
      · exact h4 j hji (by omega)
      · have hj : j = i := by omega
        subst hj
        by_cases hex : ∃ j1, j + 1 ≤ j1 ∧ j1 < j + 1 + todo ∧ toInt64 j1 = toInt64 j
        · obtain ⟨j1, ha, hb, hc⟩ := hex
          have := h4 j1 ha hb
          rw [hc] at this
          exact this
        · rw [h5 key (toInt64 j) (fun _ j1 ha hb hc => hex ⟨j1, ha, hb, hc⟩)]
          simp [Store.setBit]
    · intro k o hko
      rw [h5 k o (fun hk j ha hb => hko hk j (by omega) (by omega))]
      simp only [Store.setBit]
      rw [if_neg]
      rintro ⟨hk, ho⟩
      exact hko hk i (le_refl i) (by omega) ho.symm

theorem newFilter_panic (size numHashes : Int) (key : String) (c : Client)
    (hk : numHashes < 0) : newFilter size numHashes key c = (Outcome.panic, c) := by
  simp only [newFilter, if_pos hk]

theorem newFilter_ping_fault (size numHashes : Int) (key : String) (c : Client) (e : Err)
    (hk : ¬ numHashes < 0) (hc : c.fault = some e) :
    newFilter size numHashes key c = (Outcome.ret (none, some e), c.record Call.Ping) := by
  simp only [newFilter, if_neg hk, Client.Ping, hc]

theorem newFilter_exists_fault (size numHashes : Int) (key : String) (c : Client) (e : Err)
    (hk : ¬ numHashes < 0) (hc : c.fault = none) (hc1 : (c.record Call.Ping).fault = some e) :
    newFilter size numHashes key c =
      (Outcome.ret (none, some e), (c.record Call.Ping).record (Call.Exists key)) := by
  simp only [newFilter, if_neg hk, Client.Ping, hc, Client.Exists, hc1]

theorem newFilter_present (size numHashes : Int) (key : String) (c : Client)
    (hk : ¬ numHashes < 0) (hc : c.fault = none) (hc1 : (c.record Call.Ping).fault = none)
    (hp : c.store.present key = true) :
    newFilter size numHashes key c =
      (Outcome.ret (some (mkFilter key size numHashes.toNat), none),
        (c.record Call.Ping).record (Call.Exists key)) := by
  have hp1 : (c.record Call.Ping).store.present key = true := hp
  simp [newFilter, if_neg hk, Client.Ping, hc, Client.Exists, hc1, hp1]

theorem newFilter_absent (size numHashes : Int) (key : String) (c : Client)
    (hk : ¬ numHashes < 0) (hc : c.fault = none) (hc1 : (c.record Call.Ping).fault = none)
    (hp : c.store.present key = false) :
    newFilter size numHashes key c =
      match initLoop key (toUint64 size) 0 ((c.record Call.Ping).record (Call.Exists key)) with
      | (some e, c3) => (Outcome.ret (none, some e), c3)
      | (none, c3) => (Outcome.ret (some (mkFilter key size numHashes.toNat), none), c3) := by
  have hp1 : (c.record Call.Ping).store.present key = false := hp
  simp [newFilter, if_neg hk, Client.Ping, hc, Client.Exists, hc1, hp1, mkFilter]

theorem newFilter_error (size numHashes : Int) (key : String) (c : Client)
    (bfo : Option Filter) (e : Err)
    (h : (newFilter size numHashes key c).1 = Outcome.ret (bfo, some e)) :
    bfo = none ∧ ∃ n, c.faults (c.log.length + n) = some e := by
  by_cases hk : numHashes < 0
  · rw [newFilter_panic size numHashes key c hk] at h
    simp at h
  cases hc : c.fault with
  | some e1 =>
    rw [newFilter_ping_fault size numHashes key c e1 hk hc] at h
    simp only [Outcome.ret.injEq, Prod.mk.injEq, Option.some.injEq] at h
    obtain ⟨h1, rfl⟩ := h
    exact ⟨h1.symm, 0, by simpa [Client.fault] using hc⟩
  | none =>
    cases hc1 : (c.record Call.Ping).fault with
    | some e1 =>
      rw [newFilter_exists_fault size numHashes key c e1 hk hc hc1] at h
      simp only [Outcome.ret.injEq, Prod.mk.injEq, Option.some.injEq] at h
      obtain ⟨h1, rfl⟩ := h
      exact ⟨h1.symm, 1, by simpa [Client.fault, Client.record] using hc1⟩
    | none =>
      cases hp : c.store.present key with
      | true =>
        rw [newFilter_present size numHashes key c hk hc hc1 hp] at h
        simp at h
      | false =>
        rw [newFilter_absent size numHashes key c hk hc hc1 hp] at h
        rcases hI : initLoop key (toUint64 size) 0
            ((c.record Call.Ping).record (Call.Exists key)) with ⟨r, c3⟩
        rw [hI] at h
        cases r with
        | none => simp at h
        | some e1 =>
          simp only [Outcome.ret.injEq, Prod.mk.injEq, Option.some.injEq] at h
          obtain ⟨h1, rfl⟩ := h
          obtain ⟨n, hn⟩ := initLoop_error key _ _ _ e1 (by rw [hI])
          refine ⟨h1.symm, 2 + n, ?_⟩
          simpa [Client.record, Nat.add_assoc] using hn

theorem toUint64_zero : toUint64 0 = 0 := by decide

theorem newFilter_keeps_present (size numHashes : Int) (key : String) (c : Client)
    (hp : c.store.present key = true) :
    (newFilter size numHashes key c).2.store = c.store ∧
    ((newFilter size numHashes key c).2.log = c.log ∨
      (newFilter size numHashes key c).2.log = c.log ++ [Call.Ping] ∨
      (newFilter size numHashes key c).2.log = c.log ++ [Call.Ping, Call.Exists key]) := by
  by_cases hk : numHashes < 0
  · rw [newFilter_panic size numHashes key c hk]
    exact ⟨rfl, Or.inl rfl⟩
  cases hc : c.fault with
  | some e =>
    rw [newFilter_ping_fault size numHashes key c e hk hc]
    exact ⟨rfl, Or.inr (Or.inl rfl)⟩
  | none =>
    cases hc1 : (c.record Call.Ping).fault with
    | some e =>
      rw [newFilter_exists_fault size numHashes key c e hk hc hc1]
      exact ⟨rfl, Or.inr (Or.inr (by simp [Client.record]))⟩
    | none =>
      rw [newFilter_present size numHashes key c hk hc hc1 hp]
      exact ⟨rfl, Or.inr (Or.inr (by simp [Client.record]))⟩

theorem newFilter_filter (size numHashes : Int) (key : String) (c : Client) (bf : Filter)
    (e : Option Err) (h : (newFilter size numHashes key c).1 = Outcome.ret (some bf, e)) :
    bf = mkFilter key size numHashes.toNat := by
  by_cases hk : numHashes < 0
  · rw [newFilter_panic size numHashes key c hk] at h
    simp at h
  cases hc : c.fault with
  | some e1 =>
    rw [newFilter_ping_fault size numHashes key c e1 hk hc] at h
    simp at h
  | none =>
    cases hc1 : (c.record Call.Ping).fault with
    | some e1 =>
      rw [newFilter_exists_fault size numHashes key c e1 hk hc hc1] at h
      simp at h
    | none =>
      cases hp : c.store.present key with
      | true =>
        rw [newFilter_present size numHashes key c hk hc hc1 hp] at h
        simp only [Outcome.ret.injEq, Prod.mk.injEq, Option.some.injEq] at h
        exact h.1.symm
      | false =>
        rw [newFilter_absent size numHashes key c hk hc hc1 hp] at h
        rcases hI : initLoop key (toUint64 size) 0
            ((c.record Call.Ping).record (Call.Exists key)) with ⟨r, c3⟩
        rw [hI] at h
        cases r with
        | some e1 => simp at h
        | none =>
          simp only [Outcome.ret.injEq, Prod.mk.injEq, Option.some.injEq] at h
          exact h.1.symm

/-! ## Failing calls -/

theorem addLoop_first_fault (key : String) (item : List Byte) :
    ∀ (hfs : List HashFunc) (ps : List Nat) (c : Client) (j : Nat) (e : Err),
      hfs.map (fun hf => hf item) = ps.map Outcome.ret → j < ps.length → NoFault c j →
      c.faults (c.log.length + j) = some e →
      addLoop key item hfs c =
        (Outcome.ret (some e),
          { store := c.store.setBits key ((ps.take j).map toInt64), faults := c.faults,
            log := c.log ++ (ps.take (j + 1)).map (fun p => Call.SetBit key (toInt64 p) true) }) := by
  intro hfs
  induction hfs with
  | nil =>
    intro ps c j e h hj _ _
    cases ps with
    | nil => simp at hj
    | cons p ps => simp at h
  | cons hf rest ih =>
    intro ps c j e h hj hn he
    cases ps with
    | nil => simp at h
    | cons p ps =>
      simp only [List.map_cons, List.cons.injEq] at h
      cases j with
      | zero =>
        have hc : c.fault = some e := by simpa [Client.fault] using he
        rw [addLoop_fault key item hf rest c p e h.1 hc]
        simp [Client.record, setBits_nil]
      | succ j =>
        rw [addLoop_step key item hf rest c p h.1 (noFault_succ hn)]
        rw [ih ps
          { store := c.store.setBit key (toInt64 p) true, faults := c.faults,
            log := c.log ++ [Call.SetBit key (toInt64 p) true] } j e h.2
          (by simpa using hj)
          (by
            intro i hi
            have := hn (1 + i) (by omega)
            simpa [Nat.add_assoc] using this)
          (by
            rw [← he]
            simp only [List.length_append, List.length_singleton]
            congr 1
            omega)]
        simp [setBits_cons]

theorem containsLoop_failed_call (key : String) (item : List Byte) :
    ∀ (hfs : List HashFunc) (c : Client) (i : Nat) (e : Err), c.log.length ≤ i →
      i < (containsLoop key item hfs c).2.log.length → c.faults i = some e →
      (containsLoop key item hfs c).1 = Outcome.ret (false, some e) ∧
      (containsLoop key item hfs c).2.log.length = i + 1 := by
  intro hfs
  induction hfs with
  | nil =>
    intro c i e h1 h2 _
    rw [containsLoop_nil] at h2
    simp only at h2
    omega
  | cons hf rest ih =>
    intro c i e h1 h2 he
    cases hh : hf item with
    | panic =>
      rw [containsLoop_panic key item hf rest c hh] at h2
      simp only at h2
      omega
    | ret p =>
      cases hc : c.fault with
      | some e1 =>
        rw [containsLoop_fault key item hf rest c p e1 hh hc] at h2 ⊢
        simp only [Client.record, List.length_append, List.length_singleton] at h2 ⊢
        have hi : i = c.log.length := by omega
        subst hi
        have : some e1 = some e := by rw [← hc, ← he]; rfl
        injection this with this
        subst this
        exact ⟨rfl, rfl⟩
      | none =>
        have hne : i ≠ c.log.length := by
          rintro rfl
          rw [Client.fault, he] at hc
          exact Option.noConfusion hc
        cases hb : c.store.bits key (toInt64 p) with
        | false =>
          rw [containsLoop_zero key item hf rest c p hh hc hb] at h2
          simp only [Client.record, List.length_append, List.length_singleton] at h2
          omega
        | true =>
          rw [containsLoop_one key item hf rest c p hh hc hb] at h2 ⊢
          exact ih (c.record (Call.GetBit key (toInt64 p))) i e
            (by simp only [Client.record, List.length_append, List.length_singleton]; omega)
            h2 he

/-! ## Numeric bounds -/

theorem log_ten_bounds : (2.30258 : ℝ) < Real.log 10 ∧ Real.log 10 < (2.30259 : ℝ) := by
  have h1 : (0.6931471803 : ℝ) < Real.log 2 := Real.log_two_gt_d9
  have h2 : Real.log 2 < (0.6931471808 : ℝ) := Real.log_two_lt_d9
  have hx : |(3 / 128 : ℝ)| < 1 := by rw [abs_of_pos] <;> norm_num
  have hs := Real.abs_log_sub_add_sum_range_le hx 3
  have habs : |(3 / 128 : ℝ)| = 3 / 128 := abs_of_pos (by norm_num)
  rw [habs] at hs
  have hsum : (∑ i in Finset.range 3, (3 / 128 : ℝ) ^ (i + 1) / ((i : ℝ) + 1)) =
      3 / 128 + (3 / 128) ^ 2 / 2 + (3 / 128) ^ 3 / 3 := by
    simp [Finset.sum_range_succ]
    norm_num
  rw [hsum] at hs
  have h125 : (1 - 3 / 128 : ℝ) = 125 / 128 := by norm_num
  rw [h125] at hs
  have hrel : 3 * Real.log 10 = 10 * Real.log 2 + Real.log (125 / 128) := by
    have e1 : Real.log ((10 : ℝ) ^ 3) = 3 * Real.log 10 := by
      rw [Real.log_pow]; norm_num
    have e2 : Real.log ((2 : ℝ) ^ 10) = 10 * Real.log 2 := by
      rw [Real.log_pow]; norm_num
    have e3 : (10 : ℝ) ^ 3 = 2 ^ 10 * (125 / 128) := by norm_num
    rw [← e1, ← e2, e3, Real.log_mul (by norm_num) (by norm_num)]
  obtain ⟨hlo, hhi⟩ := abs_le.mp hs
  constructor
  · norm_num at hlo hhi ⊢
    linarith
  · norm_num at hlo hhi ⊢
    linarith

theorem log_one_hundredth : Real.log (0.01 : ℝ) = -(2 * Real.log 10) := by
  have h : (0.01 : ℝ) = ((10 : ℝ) ^ 2)⁻¹ := by norm_num
  rw [h, Real.log_inv, Real.log_pow]
  norm_num

/-! ## Answers of `Contains` across `Add` -/

theorem containsLoop_true (key : String) (item : List Byte) :
    ∀ (hfs : List HashFunc) (c : Client),
      (containsLoop key item hfs c).1 = Outcome.ret (true, none) →
      ∃ ps : List Nat, hfs.map (fun hf => hf item) = ps.map Outcome.ret ∧
        NoFault c ps.length ∧ ∀ p ∈ ps, c.store.bits key (toInt64 p) = true := by
  intro hfs
  induction hfs with
  | nil => exact fun c _ => ⟨[], rfl, fun i hi => absurd hi (Nat.not_lt_zero i), by simp⟩
  | cons hf rest ih =>
    intro c h
    cases hh : hf item with
    | panic => rw [containsLoop_panic key item hf rest c hh] at h; simp at h
    | ret p =>
      cases hc : c.fault with
      | some e => rw [containsLoop_fault key item hf rest c p e hh hc] at h; simp at h
      | none =>
        cases hb : c.store.bits key (toInt64 p) with
        | false => rw [containsLoop_zero key item hf rest c p hh hc hb] at h; simp at h
        | true =>
          rw [containsLoop_one key item hf rest c p hh hc hb] at h
          obtain ⟨ps, hps, hn, hbits⟩ := ih _ h
          refine ⟨p :: ps, by simp [hh, hps], ?_, ?_⟩
          · intro i hi
            cases i with
            | zero => simpa [Client.fault] using hc
            | succ j =>
              have := hn j (by simpa using hi)
              simp only [Client.record, List.length_append, List.length_singleton] at this
              rw [← this]
              congr 1
              omega
          · intro q hq
            rcases List.mem_cons.mp hq with rfl | hq
            · exact hb
            · exact hbits q hq

theorem contains_true_of_bits (bf : Filter) (y : List Byte) (before after : Client)
    (hmono : ∀ o, before.store.bits bf.key o = true → after.store.bits bf.key o = true)
    (hf : ∀ i, before.faults (before.log.length + i) = after.faults (after.log.length + i))
    (h : (Contains bf y before).1 = Outcome.ret (true, none)) :
    (Contains bf y after).1 = Outcome.ret (true, none) := by
  obtain ⟨ps, hps, hn, hbits⟩ := containsLoop_true bf.key y bf.hashFuncs before h
  have hn1 : NoFault after ps.length := fun i hi => (hf i).symm.trans (hn i hi)
  rw [Contains, containsLoop_ok bf.key y bf.hashFuncs ps after hps hn1]
  simp only [Outcome.ret.injEq, Prod.mk.injEq, and_true, List.all_eq_true, List.mem_map]
  rintro o ⟨p, hp, rfl⟩
  exact hmono _ (hbits p hp)

/-! ## Seed bytes -/

theorem toByte_eq_iff (i j : Nat) : toByte i = toByte j ↔ i % 256 = j % 256 := by
  simp [toByte, Fin.ext_iff]

theorem toByte_ne_of_lt (i j : Nat) (hi : i < 256) (hj : j < 256) (h : i ≠ j) :
    toByte i ≠ toByte j := by
  rw [Ne, toByte_eq_iff, Nat.mod_eq_of_lt hi, Nat.mod_eq_of_lt hj]
  exact h

theorem hashFunc_add_256 (size : Int) (i : Nat) : hashFunc size (i + 256) = hashFunc size i := by
  have hb : toByte (i + 256) = toByte i := by
    rw [toByte_eq_iff]
    omega
  funext data
  simp only [hashFunc, hb]

theorem calculateOptimalSize_tiny_rate : calculateOptimalSize 1 ((1 / 2) ^ 400) = 578 := by
  have h1 : (0.6931471803 : ℝ) < Real.log 2 := Real.log_two_gt_d9
  have h2 : Real.log 2 < (0.6931471808 : ℝ) := Real.log_two_lt_d9
  have hpos : (0 : ℝ) < Real.log 2 := by linarith
  have hval : -1 * ((1 : Int) : ℝ) * Real.log ((1 / 2) ^ 400) / Real.log 2 ^ 2 =
      400 / Real.log 2 := by
    rw [Real.log_pow, one_div, Real.log_inv]
    field_simp
    ring
  rw [calculateOptimalSize, hval, Int.ceil_eq_iff]
  constructor
  · rw [lt_div_iff₀ hpos]
    push_cast
    norm_num at h2 ⊢
    linarith
  · rw [div_le_iff₀ hpos]
    push_cast
    norm_num at h1 ⊢
    linarith

theorem calculateOptimalHashFunctions_tiny_rate : calculateOptimalHashFunctions 1 578 = 401 := by
  have h1 : (0.6931471803 : ℝ) < Real.log 2 := Real.log_two_gt_d9
  have h2 : Real.log 2 < (0.6931471808 : ℝ) := Real.log_two_lt_d9
  rw [calculateOptimalHashFunctions, Int.ceil_eq_iff]
  constructor
  · push_cast
    norm_num at h1 ⊢
    linarith
  · push_cast
    norm_num at h2 ⊢
    linarith

/-! ## Membership on a fresh filter -/

theorem toUint64_lt (x : Int) : toUint64 x < 2 ^ 64 := by
  have h := Int.emod_lt_of_pos x (show (0 : Int) < 2 ^ 64 by norm_num)
  have h0 := Int.emod_nonneg x (show (2 ^ 64 : Int) ≠ 0 by norm_num)
  rw [toUint64]
  omega

theorem toInt64_inj (a b : Nat) (ha : a < 2 ^ 64) (hb : b < 2 ^ 64)
    (h : toInt64 a = toInt64 b) : a = b := by
  rw [toInt64, toInt64, Nat.mod_eq_of_lt ha, Nat.mod_eq_of_lt hb] at h
  split_ifs at h <;> omega

theorem hashFunc_ret (size : Int) (seed : Nat) (data : List Byte) (h : toUint64 size ≠ 0) :
    hashFunc size seed data = Outcome.ret (fnv64a (data ++ [toByte seed]) % toUint64 size) := by
  simp only [hashFunc, fnvWrite_append, fnv64a]
  rw [if_neg h]

theorem mkFilter_positions (key : String) (size : Int) (k : Nat) (x : List Byte)
    (hcase : k = 0 ∨ toUint64 size ≠ 0) :
    (mkFilter key size k).hashFuncs.map (fun hf => hf x) =
      ((List.range k).map fun i => fnv64a (x ++ [toByte i]) % toUint64 size).map
        Outcome.ret := by
  rcases hcase with rfl | h
  · rfl
  · simp only [mkFilter, mkHashFuncs, List.map_map]
    apply List.map_congr_left
    intro i _
    exact hashFunc_ret size i x h

theorem addAll_reliable (bf : Filter) (pos : List Byte → List Nat)
    (hpos : ∀ s, bf.hashFuncs.map (fun hf => hf s) = (pos s).map Outcome.ret) :
    ∀ (items : List (List Byte)) (c : Client), Reliable c →
      (addAll bf items c).1 = Outcome.ret none ∧ Reliable (addAll bf items c).2 ∧
      ∀ k o, (addAll bf items c).2.store.bits k o = true ↔
        (k = bf.key ∧ ∃ s ∈ items, ∃ q ∈ pos s, toInt64 q = o) ∨ c.store.bits k o = true := by
  intro items
  induction items with
  | nil =>
    intro c hr
    exact ⟨rfl, hr, fun k o => by simp [addAll]⟩
  | cons x rest ih =>
    intro c hr
    have hrun := addLoop_ok bf.key x bf.hashFuncs (pos x) c (hpos x) (hr.noFault _)
    have hstep : addAll bf (x :: rest) c =
        addAll bf rest
          { store := c.store.setBits bf.key ((pos x).map toInt64), faults := c.faults,
            log := c.log ++ (pos x).map (fun q => Call.SetBit bf.key (toInt64 q) true) } := by
      rw [addAll, Add, hrun]
    obtain ⟨h1, h2, h3⟩ := ih
      { store := c.store.setBits bf.key ((pos x).map toInt64), faults := c.faults,
        log := c.log ++ (pos x).map (fun q => Call.SetBit bf.key (toInt64 q) true) }
      (hr.mono rfl (by simp))
    rw [hstep]
    refine ⟨h1, h2, ?_⟩
    intro k o
    rw [h3, setBits_bits]
    constructor
    · rintro (⟨hk, s, hs, q, hq, hqo⟩ | h)
      · exact Or.inl ⟨hk, s, List.mem_cons_of_mem x hs, q, hq, hqo⟩
      · by_cases hko : k = bf.key ∧ o ∈ (pos x).map toInt64
        · obtain ⟨q, hq, hqo⟩ := List.mem_map.mp hko.2
          exact Or.inl ⟨hko.1, x, List.mem_cons_self x rest, q, hq, hqo⟩
        · rw [if_neg hko] at h
          exact Or.inr h
    · rintro (⟨hk, s, hs, q, hq, hqo⟩ | h)
      · rcases List.mem_cons.mp hs with rfl | hs
        · right
          rw [if_pos ⟨hk, List.mem_map.mpr ⟨q, hq, hqo⟩⟩]
        · exact Or.inl ⟨hk, s, hs, q, hq, hqo⟩
      · right
        split
        · rfl
        · exact h

theorem newFilter_fresh (m k : Int) (key : String) (c : Client) (hk : 0 ≤ k)
    (hfresh : c.store.present key = false) (hq : NoFault c (2 + toUint64 m)) :
    (newFilter m k key c).1 = Outcome.ret (some (mkFilter key m k.toNat), none) ∧
    (newFilter m k key c).2.faults = c.faults ∧
    (newFilter m k key c).2.log =
      c.log ++ [Call.Ping, Call.Exists key] ++
        (List.range (toUint64 m)).map (fun j : Nat => Call.SetBit key (toInt64 j) false) ∧
    (∀ j, j < toUint64 m → (newFilter m k key c).2.store.bits key (toInt64 j) = false) ∧
    ∀ k1 o, (k1 = key → ∀ j, j < toUint64 m → toInt64 j ≠ o) →
      (newFilter m k key c).2.store.bits k1 o = c.store.bits k1 o := by
  have hc : c.fault = none := by simpa [Client.fault] using hq 0 (by omega)
  have hc1 : (c.record Call.Ping).fault = none := by
    simpa [Client.fault, Client.record] using hq 1 (by omega)
  have hq2 : NoFault ((c.record Call.Ping).record (Call.Exists key)) (toUint64 m) := by
    intro i hi
    have := hq (2 + i) (by omega)
    simpa [Client.record, Nat.add_assoc] using this
  obtain ⟨h1, h2, h3, h4, h5⟩ := initLoop_run key (toUint64 m) 0
    ((c.record Call.Ping).record (Call.Exists key)) hq2
  have hnew := newFilter_absent m k key c (by omega) hc hc1 hfresh
  rcases hI : initLoop key (toUint64 m) 0 ((c.record Call.Ping).record (Call.Exists key))
    with ⟨r, c3⟩
  rw [hI] at hnew h1 h2 h3 h4 h5
  simp only at h1 h2 h3 h4 h5
  subst h1
  simp only at hnew
  rw [hnew]
  refine ⟨rfl, h2, ?_, ?_, ?_⟩
  · show c3.log = _
    rw [h3, List.range_eq_range']
    simp [Client.record]
  · intro j hj
    exact h4 j (Nat.zero_le j) (by omega)
  · intro k1 o hko
    exact h5 k1 o (fun hk1 j _ hj => hko hk1 j (by omega))

theorem contains_after_adds (key : String) (m : Int) (k : Nat)
    (hcase : k = 0 ∨ toUint64 m ≠ 0) (c : Client) (hr : Reliable c)
    (hz : ∀ j, j < toUint64 m → c.store.bits key (toInt64 j) = false)
    (items : List (List Byte)) (x : List Byte) :
    (addAll (mkFilter key m k) items c).1 = Outcome.ret none ∧
    ∃ b, (Contains (mkFilter key m k) x (addAll (mkFilter key m k) items c).2).1 =
        Outcome.ret (b, none) ∧
      (b = true ↔ ∀ i, i < k → ∃ s ∈ items, ∃ j, j < k ∧ hashFunc m i x = hashFunc m j s) := by
  have hpos := fun s => mkFilter_positions key m k s hcase
  obtain ⟨h1, h2, h3⟩ := addAll_reliable (mkFilter key m k)
    (fun s => (List.range k).map fun i => fnv64a (s ++ [toByte i]) % toUint64 m) hpos items c hr
  refine ⟨h1, _, by rw [Contains, containsLoop_ok _ x _ _ _ (hpos x) (h2.noFault _)], ?_⟩
  simp only [List.all_eq_true, List.mem_map, List.mem_range]
  have hne : ∀ i, i < k → toUint64 m ≠ 0 := by
    intro i hi
    rcases hcase with rfl | h
    · exact absurd hi (Nat.not_lt_zero i)
    · exact h
  have hlt : ∀ v : Nat, toUint64 m ≠ 0 → v % toUint64 m < toUint64 m ∧ v % toUint64 m < 2 ^ 64 := by
    intro v h
    have h1 := Nat.mod_lt v (Nat.pos_of_ne_zero h)
    exact ⟨h1, lt_trans h1 (toUint64_lt m)⟩
  constructor
  · intro hall i hi
    have hm := hne i hi
    have hbit := hall (toInt64 (fnv64a (x ++ [toByte i]) % toUint64 m))
      ⟨_, ⟨i, hi, rfl⟩, rfl⟩
    rw [show (mkFilter key m k).key = key from rfl, h3] at hbit
    rcases hbit with ⟨_, s, hs, q, hq, hqo⟩ | hbit
    · simp only [List.mem_map, List.mem_range] at hq
      obtain ⟨j, hj, rfl⟩ := hq
      refine ⟨s, hs, j, hj, ?_⟩
      rw [hashFunc_ret m i x hm, hashFunc_ret m j s hm]
      congr 1
      exact (toInt64_inj _ _ (hlt _ hm).2 (hlt _ hm).2 hqo).symm
    · rw [hz _ (hlt _ hm).1] at hbit
      exact Bool.noConfusion hbit
  · rintro hall o ⟨q, ⟨i, hi, rfl⟩, rfl⟩
    have hm := hne i hi
    obtain ⟨s, hs, j, hj, hij⟩ := hall i hi
    rw [hashFunc_ret m i x hm, hashFunc_ret m j s hm] at hij
    injection hij with hij
    rw [show (mkFilter key m k).key = key from rfl, h3]
    refine Or.inl ⟨rfl, s, hs, _, List.mem_map.mpr ⟨j, List.mem_range.mpr hj, rfl⟩, ?_⟩
    rw [hij]

/-! ## The claims -/

/-- C1, as stated, fails: on the one-bit filter with one hash function, over a store whose
second call fails, `Add` of the empty item succeeds and `Contains` of it then returns
`(false, err)`, not `(true, nil)`. -/
theorem no_false_negative_needs_get_bit :
    1 ≤ (mkFilter "bloom" 1 1).size ∧
    addAll (mkFilter "bloom" 1 1) [[]] (failingAt 1 "connection refused") =
      (Outcome.ret none, (addAll (mkFilter "bloom" 1 1) [[]] (failingAt 1 "connection refused")).2) ∧
    (Contains (mkFilter "bloom" 1 1) []
      (addAll (mkFilter "bloom" 1 1) [[]] (failingAt 1 "connection refused")).2).1 =
      Outcome.ret (false, some "connection refused") := by
  have h1 : toUint64 1 = 1 := by decide
  refine ⟨by simp [mkFilter, h1], ?_, ?_⟩ <;>
    simp [mkFilter, mkHashFuncs, List.range_succ, hashFunc, h1, addAll, Add, addLoop,
      Client.SetBit, Client.fault, failingAt, Contains, containsLoop, Client.GetBit, Nat.mod_one]

/-- C1, amended: when `Add(x)` and then `Add(y)` for each `y` of `ys` have all returned `nil`,
`Contains(x)` on the resulting store returns `(true, nil)` if none of its get-bit calls fails,
and in any case returns either `(true, nil)` or `(false, err)` for the error `err` of a failed
get-bit call: never `(false, nil)`. -/
theorem no_false_negative (bf : Filter) (x : List Byte) (ys : List (List Byte)) (c c1 : Client)
    (h : addAll bf (x :: ys) c = (Outcome.ret none, c1)) :
    (NoFault c1 bf.hashFuncs.length → (Contains bf x c1).1 = Outcome.ret (true, none)) ∧
    ((Contains bf x c1).1 = Outcome.ret (true, none) ∨
      ∃ e i, i < bf.hashFuncs.length ∧ c1.faults (c1.log.length + i) = some e ∧
        (Contains bf x c1).1 = Outcome.ret (false, some e)) := by
  obtain ⟨hx, hys⟩ := addAll_cons_ok bf x ys c c1 h
  obtain ⟨ps, hps, hn⟩ := addLoop_ret_none bf.key x bf.hashFuncs c _ hx
  have hlen : bf.hashFuncs.length = ps.length := by
    simpa using congrArg List.length hps
  have hset : ∀ p ∈ ps, c1.store.bits bf.key (toInt64 p) = true := by
    intro p hp
    have h2 := addAll_mono bf bf.key (toInt64 p) ys (Add bf x c).2 (by
      rw [Add, addLoop_ok bf.key x bf.hashFuncs ps c hps hn]
      rw [setBits_bits, if_pos ⟨rfl, List.mem_map_of_mem toInt64 hp⟩])
    rw [hys] at h2
    exact h2
  constructor
  · intro hq
    rw [Contains, containsLoop_ok bf.key x bf.hashFuncs ps c1 hps (hlen ▸ hq)]
    simp only [Outcome.ret.injEq, Prod.mk.injEq, and_true, List.all_eq_true, List.mem_map]
    rintro o ⟨p, hp, rfl⟩
    exact hset p hp
  · rw [hlen]
    exact containsLoop_set bf.key x bf.hashFuncs ps c1 hps hset

/-- C1, witness: on the 16-bit filter with 3 hash functions over the quiet empty store, after
`Add` of the item `hi` and then of the item `a`, `Contains` of `hi` returns `(true, nil)`. -/
theorem no_false_negative_witness :
    addAll (mkFilter "bloom" 16 3) [[104, 105], [97]] quietClient =
      (Outcome.ret none, (addAll (mkFilter "bloom" 16 3) [[104, 105], [97]] quietClient).2) ∧
    (Contains (mkFilter "bloom" 16 3) [104, 105]
      (addAll (mkFilter "bloom" 16 3) [[104, 105], [97]] quietClient).2).1 =
        Outcome.ret (true, none) :=
  ⟨Prod.ext (by decide) rfl,
    (no_false_negative (mkFilter "bloom" 16 3) [104, 105] [[97]] quietClient
      (addAll (mkFilter "bloom" 16 3) [[104, 105], [97]] quietClient).2
      (Prod.ext (by decide) rfl)).1 (fun _ _ => rfl)⟩

/-- C2: when the hash functions return the positions `ps` for the item and no get-bit call
fails, `Contains` returns `(b, nil)` where `b` is true exactly when the bit at every position is 1;
it leaves the store alone; if all bits are 1 it has queried every position in order, and if
position `j` is the first whose bit is 0 it returns `false` having queried the positions
`0..j` in order and none after. -/
theorem contains_queries_until_first_zero (bf : Filter) (item : List Byte) (c : Client)
    (ps : List Nat) (hps : bf.hashFuncs.map (fun hf => hf item) = ps.map Outcome.ret)
    (hn : NoFault c bf.hashFuncs.length) :
    (∃ b, (Contains bf item c).1 = Outcome.ret (b, none) ∧
      (b = true ↔ ∀ p ∈ ps, c.store.bits bf.key (toInt64 p) = true)) ∧
    (Contains bf item c).2.store = c.store ∧
    ((∀ p ∈ ps, c.store.bits bf.key (toInt64 p) = true) →
      (Contains bf item c).2.log = c.log ++ ps.map fun p => Call.GetBit bf.key (toInt64 p)) ∧
    (∀ j pj, ps[j]? = some pj → c.store.bits bf.key (toInt64 pj) = false →
      (∀ i p, i < j → ps[i]? = some p → c.store.bits bf.key (toInt64 p) = true) →
      (Contains bf item c).1 = Outcome.ret (false, none) ∧
      (Contains bf item c).2.log =
        c.log ++ (ps.take (j + 1)).map fun p => Call.GetBit bf.key (toInt64 p)) := by
  have hlen : bf.hashFuncs.length = ps.length := by
    simpa using congrArg List.length hps
  have hrun := containsLoop_ok bf.key item bf.hashFuncs ps c hps (hlen ▸ hn)
  refine ⟨⟨_, by rw [Contains, hrun], ?_⟩, by rw [Contains, hrun], ?_, ?_⟩
  · simp [List.all_eq_true]
  · intro hall
    rw [Contains, hrun, queried_all_one]
    · simp
    · simpa using hall
  · intro j pj hj hz hb
    have hq := queried_first_zero (c.store.bits bf.key) (ps.map toInt64) j (toInt64 pj)
      (by simp [hj]) hz (by
        intro i o hi ho
        rw [List.getElem?_map] at ho
        cases hpi : ps[i]? with
        | none => rw [hpi] at ho; simp at ho
        | some p =>
          rw [hpi] at ho
          injection ho with ho
          subst ho
          exact hb i p hi hpi)
    rw [Contains, hrun, hq]
    refine ⟨?_, by simp only [List.map_take, List.map_map]; rfl⟩
    simp only [Outcome.ret.injEq, Prod.mk.injEq, and_true]
    rw [Bool.eq_false_iff]
    intro hall
    rw [List.all_eq_true] at hall
    have := hall (toInt64 pj) (List.mem_map_of_mem toInt64 (List.getElem?_mem hj))
    rw [hz] at this
    exact Bool.noConfusion this

/-- C2, witness: on the 16-bit filter with 3 hash functions over the quiet empty store, the
item `hi` has the positions 14, 1, 8; `Contains` returns `false` after the one query of bit 14. -/
theorem contains_queries_until_first_zero_witness :
    (mkFilter "bloom" 16 3).hashFuncs.map (fun hf => hf [104, 105]) =
      [14, 1, 8].map Outcome.ret ∧
    NoFault quietClient (mkFilter "bloom" 16 3).hashFuncs.length ∧
    (Contains (mkFilter "bloom" 16 3) [104, 105] quietClient).1 = Outcome.ret (false, none) ∧
    (Contains (mkFilter "bloom" 16 3) [104, 105] quietClient).2.log =
      quietClient.log ++ ([14, 1, 8].take (0 + 1)).map fun p =>
        Call.GetBit (mkFilter "bloom" 16 3).key (toInt64 p) :=
  ⟨by decide, fun _ _ => rfl,
    (contains_queries_until_first_zero (mkFilter "bloom" 16 3) [104, 105] quietClient [14, 1, 8]
      (by decide) (fun _ _ => rfl)).2.2.2 0 14 rfl rfl (fun i _ hi _ => absurd hi (Nat.not_lt_zero i))⟩

/-- C3: when the hash functions return the positions `ps` for the item and no set-bit call
fails, `Add` returns `nil` after issuing exactly one call set-bit(key, position_i, 1) per hash
function, in order; afterwards the bit at every position is 1 under the key of the filter, and
every other bit, under any key, is as before. -/
theorem add_sets_exactly_the_positions (bf : Filter) (item : List Byte) (c : Client)
    (ps : List Nat) (hps : bf.hashFuncs.map (fun hf => hf item) = ps.map Outcome.ret)
    (hn : NoFault c bf.hashFuncs.length) :
    (Add bf item c).1 = Outcome.ret none ∧
    ps.length = bf.hashFuncs.length ∧
    (Add bf item c).2.log = c.log ++ ps.map (fun p => Call.SetBit bf.key (toInt64 p) true) ∧
    (∀ p ∈ ps, (Add bf item c).2.store.bits bf.key (toInt64 p) = true) ∧
    (∀ k o, ¬ (k = bf.key ∧ ∃ p ∈ ps, toInt64 p = o) →
      (Add bf item c).2.store.bits k o = c.store.bits k o) := by
  have hlen : bf.hashFuncs.length = ps.length := by
    simpa using congrArg List.length hps
  have hrun := addLoop_ok bf.key item bf.hashFuncs ps c hps (hlen ▸ hn)
  refine ⟨by rw [Add, hrun], hlen.symm, by rw [Add, hrun], ?_, ?_⟩
  · intro p hp
    rw [Add, hrun, setBits_bits, if_pos ⟨rfl, List.mem_map_of_mem toInt64 hp⟩]
  · intro k o hko
    rw [Add, hrun, setBits_bits, if_neg]
    rintro ⟨hk, ho⟩
    exact hko ⟨hk, by simpa using ho⟩

/-- C3, witness: on the 16-bit filter with 3 hash functions over the quiet empty store, adding
the item `hi` issues the three set-bit calls for the positions 14, 1, 8. -/
theorem add_sets_exactly_the_positions_witness :
    (mkFilter "bloom" 16 3).hashFuncs.map (fun hf => hf [104, 105]) =
      [14, 1, 8].map Outcome.ret ∧
    NoFault quietClient (mkFilter "bloom" 16 3).hashFuncs.length ∧
    (Add (mkFilter "bloom" 16 3) [104, 105] quietClient).1 = Outcome.ret none ∧
    (Add (mkFilter "bloom" 16 3) [104, 105] quietClient).2.log =
      quietClient.log ++
        [14, 1, 8].map (fun p => Call.SetBit (mkFilter "bloom" 16 3).key (toInt64 p) true) :=
  ⟨by decide, fun _ _ => rfl,
    (add_sets_exactly_the_positions (mkFilter "bloom" 16 3) [104, 105] quietClient [14, 1, 8]
      (by decide) (fun _ _ => rfl)).1,
    (add_sets_exactly_the_positions (mkFilter "bloom" 16 3) [104, 105] quietClient [14, 1, 8]
      (by decide) (fun _ _ => rfl)).2.2.1⟩

/-- C4, as stated, fails: for `n = 1000` and `p = 1` over the quiet empty store the constructor
returns a filter (of bit-array length 0, without hash functions) and no error. -/
theorem newBloomFilter_accepts_p_one :
    ((1000 : Int) ≤ 0 ∨ (1 : ℝ) ≤ 0 ∨ (1 : ℝ) ≥ 1) ∧
    (NewBloomFilter 1000 1 "localhost:6379" "bloom" quietClient).1 =
      Outcome.ret (some (mkFilter "bloom" 0 0), none) ∧
    ¬ ∃ e, (NewBloomFilter 1000 1 "localhost:6379" "bloom" quietClient).1 =
      Outcome.ret (none, some e) := by
  have h : (NewBloomFilter 1000 1 "localhost:6379" "bloom" quietClient).1 =
      Outcome.ret (some (mkFilter "bloom" 0 0), none) := by
    rw [NewBloomFilter, calculateOptimalSize_one, calculateOptimalHashFunctions_zero,
      newFilter_absent 0 0 "bloom" quietClient (by decide) rfl rfl rfl, toUint64_zero,
      initLoop_zero]
    rfl
  refine ⟨Or.inr (Or.inr (le_refl 1)), h, ?_⟩
  rintro ⟨e, he⟩
  rw [h] at he
  simp at he

/-- C4, amended: the constructor does not validate `n` and `p`. Whatever they are, an error it
returns comes without a filter and is the error of a failed store call; and for `p = 1` and
`n ≠ 0` (at `n = 0` the source divides zero by zero in `float64`), when the ping and the
existence check succeed, it returns the filter of bit-array length 0 without hash functions, and
no error, after these two calls only. -/
theorem newBloomFilter_does_not_validate (n : Int) (p : ℝ) (addr key : String) (c : Client) :
    (∀ bfo e, (NewBloomFilter n p addr key c).1 = Outcome.ret (bfo, some e) →
      bfo = none ∧ ∃ i, c.faults (c.log.length + i) = some e) ∧
    (n ≠ 0 → p = 1 → NoFault c 2 →
      (NewBloomFilter n p addr key c).1 = Outcome.ret (some (mkFilter key 0 0), none) ∧
      (NewBloomFilter n p addr key c).2.log = c.log ++ [Call.Ping, Call.Exists key]) := by
  constructor
  · intro bfo e h
    exact newFilter_error _ _ key c bfo e h
  · intro _ hp hn
    subst hp
    have hc : c.fault = none := by simpa [Client.fault] using hn 0 (by norm_num)
    have hc1 : (c.record Call.Ping).fault = none := by
      simpa [Client.fault, Client.record] using hn 1 (by norm_num)
    rw [NewBloomFilter, calculateOptimalSize_one, calculateOptimalHashFunctions_zero]
    cases hpr : c.store.present key with
    | true =>
      rw [newFilter_present 0 0 key c (by decide) hc hc1 hpr]
      exact ⟨rfl, by simp [Client.record]⟩
    | false =>
      rw [newFilter_absent 0 0 key c (by decide) hc hc1 hpr, toUint64_zero, initLoop_zero]
      exact ⟨rfl, by simp [Client.record]⟩

/-- C4, witness: `n = 1000` and `p = 1` over the quiet empty store. -/
theorem newBloomFilter_does_not_validate_witness :
    (1000 : Int) ≠ 0 ∧ (1 : ℝ) = 1 ∧ NoFault quietClient 2 ∧
    (NewBloomFilter 1000 1 "localhost:6379" "bloom" quietClient).1 =
      Outcome.ret (some (mkFilter "bloom" 0 0), none) ∧
    (NewBloomFilter 1000 1 "localhost:6379" "bloom" quietClient).2.log =
      quietClient.log ++ [Call.Ping, Call.Exists "bloom"] :=
  ⟨by decide, rfl, fun _ _ => rfl,
    (newBloomFilter_does_not_validate 1000 1 "localhost:6379" "bloom" quietClient).2
      (by decide) rfl (fun _ _ => rfl)⟩

/-- C6: in the filter built for a bit-array length `1 ≤ size` (an `int`, so below `2 ^ 63`),
hash function `i` is defined on every byte sequence and returns FNV-1a-64 of the input followed
by the seed byte `i`, modulo `size`, which is below `size`; `Add` and `Contains` do not panic,
and every call they issue is a set-bit, respectively a get-bit, under the key of the filter at
an offset in `[0, size)`. -/
theorem hash_positions_in_range (key : String) (size : Int) (k : Nat) (h1 : 1 ≤ size)
    (h2 : size < 2 ^ 63) :
    (∀ i, i < k → ∀ data, ∃ hf, (mkFilter key size k).hashFuncs[i]? = some hf ∧
      hf data = Outcome.ret (fnv64a (data ++ [toByte i]) % size.toNat) ∧
      ((fnv64a (data ++ [toByte i]) % size.toNat : Nat) : Int) < size) ∧
    (∀ item c, (Add (mkFilter key size k) item c).1 ≠ Outcome.panic ∧
      ∀ call ∈ (Add (mkFilter key size k) item c).2.log.drop c.log.length,
        ∃ o, call = Call.SetBit key o true ∧ 0 ≤ o ∧ o < size) ∧
    (∀ item c, (Contains (mkFilter key size k) item c).1 ≠ Outcome.panic ∧
      ∀ call ∈ (Contains (mkFilter key size k) item c).2.log.drop c.log.length,
        ∃ o, call = Call.GetBit key o ∧ 0 ≤ o ∧ o < size) := by
  have hpos : 0 < size.toNat := by omega
  have hlt : ∀ x : Nat, ((x % size.toNat : Nat) : Int) < size := by
    intro x
    have := Nat.mod_lt x hpos
    omega
  have hdef : ∀ item, ∀ hf ∈ (mkFilter key size k).hashFuncs, hf item ≠ Outcome.panic := by
    intro item hf hmem
    obtain ⟨i, _, rfl⟩ := mem_mkHashFuncs size k hf hmem
    rw [hashFunc_eq size i item h1 h2]
    exact fun h => Outcome.noConfusion h
  have hoff : ∀ item (p : Nat), (∃ hf ∈ (mkFilter key size k).hashFuncs, hf item = Outcome.ret p) →
      0 ≤ toInt64 p ∧ toInt64 p < size := by
    rintro item p ⟨hf, hmem, hp⟩
    obtain ⟨i, _, rfl⟩ := mem_mkHashFuncs size k hf hmem
    rw [hashFunc_eq size i item h1 h2] at hp
    injection hp with hp
    have hb := hlt (fnv64a (item ++ [toByte i]))
    rw [hp] at hb
    rw [toInt64_of_lt p (by omega)]
    exact ⟨Int.natCast_nonneg p, hb⟩
  refine ⟨?_, ?_, ?_⟩
  · intro i hi data
    exact ⟨hashFunc size i, mkHashFuncs_get size k i hi, hashFunc_eq size i data h1 h2,
      hlt _⟩
  · intro item c
    refine ⟨addLoop_no_panic key item _ c (hdef item), ?_⟩
    obtain ⟨qs, hqs, hlog⟩ := addLoop_calls key item (mkFilter key size k).hashFuncs c
    intro call hcall
    rw [Add, show (mkFilter key size k).key = key from rfl, hlog, List.drop_left] at hcall
    obtain ⟨p, hp, rfl⟩ := List.mem_map.mp hcall
    exact ⟨toInt64 p, rfl, hoff item p (hqs p hp)⟩
  · intro item c
    refine ⟨containsLoop_no_panic key item _ c (hdef item), ?_⟩
    obtain ⟨qs, hqs, hlog⟩ := containsLoop_calls key item (mkFilter key size k).hashFuncs c
    intro call hcall
    rw [Contains, show (mkFilter key size k).key = key from rfl, hlog, List.drop_left] at hcall
    obtain ⟨p, hp, rfl⟩ := List.mem_map.mp hcall
    exact ⟨toInt64 p, rfl, hoff item p (hqs p hp)⟩

/-- C6, witness: the 16-bit filter with 3 hash functions; its hash function 2 sends the item
`hi` to position 8. -/
theorem hash_positions_in_range_witness :
    (1 : Int) ≤ 16 ∧ (16 : Int) < 2 ^ 63 ∧
    ∃ hf, (mkFilter "bloom" 16 3).hashFuncs[2]? = some hf ∧
      hf [104, 105] = Outcome.ret (fnv64a ([104, 105] ++ [toByte 2]) % (16 : Int).toNat) ∧
      ((fnv64a ([104, 105] ++ [toByte 2]) % (16 : Int).toNat : Nat) : Int) < 16 :=
  ⟨by decide, by decide,
    (hash_positions_in_range "bloom" 16 3 (by decide) (by decide)).1 2 (by decide) [104, 105]⟩

/-- C7: `Add` is idempotent. On a store whose calls do not fail, the store after `Add(x)`
twice is the store after `Add(x)` once, and `Contains(y)` has the same result on both, for every
item `y`. -/
theorem add_idempotent (bf : Filter) (x : List Byte) (c : Client) (h : Reliable c) :
    (Add bf x (Add bf x c).2).2.store = (Add bf x c).2.store ∧
    ∀ y, (Contains bf y (Add bf x (Add bf x c).2).2).1 = (Contains bf y (Add bf x c).2).1 := by
  have h1 := reliable_add bf x c h
  have h2 := reliable_add bf x _ h1
  have hs : (Add bf x (Add bf x c).2).2.store = (Add bf x c).2.store := by
    rw [add_store_reliable bf x _ h1, add_store_reliable bf x c h, Store.eq_iff]
    constructor
    · intro k
      simp only [setBits_present]
      split <;> simp_all
    · intro k o
      simp only [setBits_bits]
      split <;> simp_all
  exact ⟨hs, fun y => containsLoop_congr bf.key y bf.hashFuncs _ _ hs h2 h1⟩

/-- C7, witness: adding the item `hi` twice to the 16-bit filter with 3 hash functions over the
quiet empty store. -/
theorem add_idempotent_witness :
    Reliable quietClient ∧
    (Add (mkFilter "bloom" 16 3) [104, 105]
        (Add (mkFilter "bloom" 16 3) [104, 105] quietClient).2).2.store =
      (Add (mkFilter "bloom" 16 3) [104, 105] quietClient).2.store :=
  ⟨fun _ => rfl, (add_idempotent (mkFilter "bloom" 16 3) [104, 105] quietClient fun _ => rfl).1⟩

/-- C8: `Add` commutes. On a store whose calls do not fail, the store after `Add(A); Add(B)`
equals, bit for bit and key for key, the store after `Add(B); Add(A)`. -/
theorem add_commutes (bf : Filter) (a b : List Byte) (c : Client) (h : Reliable c) :
    (Add bf b (Add bf a c).2).2.store = (Add bf a (Add bf b c).2).2.store := by
  rw [add_store_reliable bf b _ (reliable_add bf a c h), add_store_reliable bf a c h,
    add_store_reliable bf a _ (reliable_add bf b c h), add_store_reliable bf b c h, Store.eq_iff]
  constructor
  · intro k
    simp only [setBits_present]
    split <;> split <;> simp_all
  · intro k o
    simp only [setBits_bits]
    split <;> split <;> simp_all

/-- C8, witness: adding the items `hi` and `a` in both orders to the 16-bit filter with 3 hash
functions over the quiet empty store. -/
theorem add_commutes_witness :
    Reliable quietClient ∧
    (Add (mkFilter "bloom" 16 3) [97] (Add (mkFilter "bloom" 16 3) [104, 105] quietClient).2).2.store =
      (Add (mkFilter "bloom" 16 3) [104, 105] (Add (mkFilter "bloom" 16 3) [97] quietClient).2).2.store :=
  ⟨fun _ => rfl, add_commutes (mkFilter "bloom" 16 3) [104, 105] [97] quietClient fun _ => rfl⟩

/-- C9: let `m` be the bit-array length and `k ≥ 0` the number of hash functions that the two
sizing calls return (for `k < 0`, `make` panics and the constructor does not succeed). Over a
store in which the key does not exist and whose calls do not fail, the constructor returns the
filter and no error, having issued the ping, the existence check and then
set-bit(key, int64(i), 0) for `i = 0, 1, ...` below `uint(m)` in order, and each of these bits
reads 0 afterwards. For `0 ≤ m < 2 ^ 63` these are the calls set-bit(key, i, 0) for
`i = 0, ..., m - 1`, the field `size` is `m`, and every bit at an index in `[0, m)` under the key
reads 0. -/
theorem fresh_key_is_zeroed (m k : Int) (key : String) (c : Client) (hk : 0 ≤ k)
    (hfresh : c.store.present key = false) (hq : NoFault c (2 + toUint64 m)) :
    (newFilter m k key c).1 = Outcome.ret (some (mkFilter key m k.toNat), none) ∧
    (newFilter m k key c).2.log =
      c.log ++ [Call.Ping, Call.Exists key] ++
        (List.range (toUint64 m)).map (fun j : Nat => Call.SetBit key (toInt64 j) false) ∧
    (∀ j, j < toUint64 m → (newFilter m k key c).2.store.bits key (toInt64 j) = false) ∧
    (0 ≤ m → m < 2 ^ 63 →
      ((mkFilter key m k.toNat).size : Int) = m ∧
      (newFilter m k key c).2.log =
        c.log ++ [Call.Ping, Call.Exists key] ++
          (List.range m.toNat).map (fun i : Nat => Call.SetBit key (i : Int) false) ∧
      ∀ i : Int, 0 ≤ i → i < m → (newFilter m k key c).2.store.bits key i = false) := by
  obtain ⟨h1, _, h3, h4, _⟩ := newFilter_fresh m k key c hk hfresh hq
  refine ⟨h1, h3, h4, ?_⟩
  intro hm0 hm
  have hu : toUint64 m = m.toNat := toUint64_of_nonneg m hm0 (lt_trans hm (by norm_num))
  refine ⟨?_, ?_, ?_⟩
  · show ((toUint64 m : Nat) : Int) = m
    rw [hu]
    omega
  · rw [h3, hu]
    congr 1
    apply List.map_congr_left
    intro j hj
    rw [toInt64_of_lt j (by have := List.mem_range.mp hj; omega)]
  · intro i hi0 hi1
    have := h4 i.toNat (by rw [hu]; omega)
    rw [toInt64_of_lt i.toNat (by omega)] at this
    rw [show ((i.toNat : Nat) : Int) = i by omega] at this
    exact this

/-- C9, witness: a bit-array length of 3 and 2 hash functions over the quiet empty store: the
constructor issues the ping, the existence check and set-bit(key, i, 0) for `i = 0, 1, 2`. -/
theorem fresh_key_is_zeroed_witness :
    (0 : Int) ≤ 2 ∧ quietClient.store.present "bloom" = false ∧
    NoFault quietClient (2 + toUint64 3) ∧ (0 : Int) ≤ 3 ∧ (3 : Int) < 2 ^ 63 ∧
    (newFilter 3 2 "bloom" quietClient).2.log =
      quietClient.log ++ [Call.Ping, Call.Exists "bloom"] ++
        (List.range (3 : Int).toNat).map (fun i : Nat => Call.SetBit "bloom" (i : Int) false) ∧
    ∀ i : Int, 0 ≤ i → i < 3 → (newFilter 3 2 "bloom" quietClient).2.store.bits "bloom" i = false :=
  ⟨by decide, rfl, fun _ _ => rfl, by decide, by decide,
    ((fresh_key_is_zeroed 3 2 "bloom" quietClient (by decide) rfl (fun _ _ => rfl)).2.2.2
      (by decide) (by decide)).2⟩

/-- C10: let `m` and `k` be the sizes that the two sizing calls return, whatever they are. Over
a store in which the key exists, and whether calls fail or not, the constructor leaves the store
as it was and issues no set-bit call (only the ping and the existence check); when these two
calls succeed and `make` does not panic (`k ≥ 0`) it returns the filter built from `m`, `k` and
the key, and any filter it returns is that one, the same at every construction with the same
sizes; and `Contains` of a filter answers every item on the store after the construction as it
did on the store before it (for the same failures of the calls to come), so an answer `true`
before is an answer `true` after. -/
theorem existing_key_is_reused (m k : Int) (key : String) (c : Client)
    (hpres : c.store.present key = true) :
    (newFilter m k key c).2.store = c.store ∧
    (∀ call ∈ (newFilter m k key c).2.log.drop c.log.length,
      call = Call.Ping ∨ call = Call.Exists key) ∧
    (0 ≤ k → NoFault c 2 →
      (newFilter m k key c).1 = Outcome.ret (some (mkFilter key m k.toNat), none)) ∧
    (∀ bf e, (newFilter m k key c).1 = Outcome.ret (some bf, e) →
      bf = mkFilter key m k.toNat) ∧
    (∀ (bf : Filter) (item : List Byte) (before after : Client),
      before.store = c.store → after.store = (newFilter m k key c).2.store →
      (∀ i, before.faults (before.log.length + i) = after.faults (after.log.length + i)) →
      (Contains bf item after).1 = (Contains bf item before).1) := by
  obtain ⟨hs, hl⟩ := newFilter_keeps_present m k key c hpres
  refine ⟨hs, ?_, ?_, ?_, ?_⟩
  · intro call hcall
    rcases hl with h | h | h <;> rw [h] at hcall
    · simp at hcall
    · rw [List.drop_left] at hcall
      simp only [List.mem_singleton] at hcall
      exact Or.inl hcall
    · rw [List.drop_left] at hcall
      simpa using hcall
  · intro hk hq
    have hc : c.fault = none := by simpa [Client.fault] using hq 0 (by norm_num)
    have hc1 : (c.record Call.Ping).fault = none := by
      simpa [Client.fault, Client.record] using hq 1 (by norm_num)
    rw [newFilter_present m k key c (by omega) hc hc1 hpres]
  · intro bf e h
    exact newFilter_filter m k key c bf e h
  · intro bf item before after hb ha hf
    exact containsLoop_same bf.key item bf.hashFuncs after before
      (by rw [ha, hb]; exact hs) (fun i => (hf i).symm)

/-- C10, witness: a bit-array length of 16 and 3 hash functions over the store in which the key
`bloom` exists with one bit set. -/
theorem existing_key_is_reused_witness :
    usedClient.store.present "bloom" = true ∧
    (newFilter 16 3 "bloom" usedClient).2.store = usedClient.store ∧
    ∀ call ∈ (newFilter 16 3 "bloom" usedClient).2.log.drop usedClient.log.length,
      call = Call.Ping ∨ call = Call.Exists "bloom" :=
  ⟨by decide, (existing_key_is_reused 16 3 "bloom" usedClient (by decide)).1,
    (existing_key_is_reused 16 3 "bloom" usedClient (by decide)).2.1⟩

/-- C11: `Add` is fail-fast without rollback. When the hash functions return the positions
`ps` for the item and the set-bit call for position `j` is the first to fail, with error `e`,
then `Add` returns exactly `e`, has issued the set-bit calls for the positions `0..j` in order
and none after, the bits at the positions `0..j-1` are 1 afterwards, and every bit that is not
at one of these positions is as before. -/
theorem add_fails_fast (bf : Filter) (item : List Byte) (c : Client) (ps : List Nat) (j : Nat)
    (e : Err) (hps : bf.hashFuncs.map (fun hf => hf item) = ps.map Outcome.ret)
    (hj : j < ps.length) (hn : NoFault c j) (he : c.faults (c.log.length + j) = some e) :
    (Add bf item c).1 = Outcome.ret (some e) ∧
    (Add bf item c).2.log =
      c.log ++ (ps.take (j + 1)).map (fun p => Call.SetBit bf.key (toInt64 p) true) ∧
    (∀ i p, i < j → ps[i]? = some p → (Add bf item c).2.store.bits bf.key (toInt64 p) = true) ∧
    (∀ k o, ¬ (k = bf.key ∧ ∃ p ∈ ps.take j, toInt64 p = o) →
      (Add bf item c).2.store.bits k o = c.store.bits k o) := by
  have hrun := addLoop_first_fault bf.key item bf.hashFuncs ps c j e hps hj hn he
  refine ⟨by rw [Add, hrun], by rw [Add, hrun], ?_, ?_⟩
  · intro i p hi hp
    rw [Add, hrun, setBits_bits, if_pos]
    refine ⟨rfl, List.mem_map_of_mem toInt64 ?_⟩
    apply List.getElem?_mem (n := i)
    rw [List.getElem?_take, if_pos hi, hp]
  · intro k o hko
    rw [Add, hrun, setBits_bits, if_neg]
    rintro ⟨hk, ho⟩
    obtain ⟨q, hq, hqo⟩ := List.mem_map.mp ho
    exact hko ⟨hk, q, hq, hqo⟩

/-- C11, witness: on the 16-bit filter with 3 hash functions, adding the item `hi` (positions
14, 1, 8) over the empty store whose call number 1 fails: the error is returned after the
set-bit calls for the positions 14 and 1. -/
theorem add_fails_fast_witness :
    (mkFilter "bloom" 16 3).hashFuncs.map (fun hf => hf [104, 105]) =
      [14, 1, 8].map Outcome.ret ∧
    1 < [14, 1, 8].length ∧ NoFault (failingAt 1 "timeout") 1 ∧
    (failingAt 1 "timeout").faults ((failingAt 1 "timeout").log.length + 1) = some "timeout" ∧
    (Add (mkFilter "bloom" 16 3) [104, 105] (failingAt 1 "timeout")).1 =
      Outcome.ret (some "timeout") ∧
    (Add (mkFilter "bloom" 16 3) [104, 105] (failingAt 1 "timeout")).2.log =
      (failingAt 1 "timeout").log ++ ([14, 1, 8].take (1 + 1)).map
        (fun p => Call.SetBit (mkFilter "bloom" 16 3).key (toInt64 p) true) :=
  ⟨by decide, by decide, fun i hi => by simp [failingAt]; omega, rfl,
    (add_fails_fast (mkFilter "bloom" 16 3) [104, 105] (failingAt 1 "timeout") [14, 1, 8] 1
      "timeout" (by decide) (by decide) (fun i hi => by simp [failingAt]; omega) rfl).1,
    (add_fails_fast (mkFilter "bloom" 16 3) [104, 105] (failingAt 1 "timeout") [14, 1, 8] 1
      "timeout" (by decide) (by decide) (fun i hi => by simp [failingAt]; omega) rfl).2.1⟩

/-- C12: if a get-bit call issued by `Contains` fails with error `e` (call number `i` of the
client, among those issued by this `Contains`), then `Contains` returns `(false, e)`, never
`true`, and that call is the last one it issues. -/
theorem contains_fails_with_store_error (bf : Filter) (item : List Byte) (c : Client) (i : Nat)
    (e : Err) (h1 : c.log.length ≤ i) (h2 : i < (Contains bf item c).2.log.length)
    (he : c.faults i = some e) :
    (Contains bf item c).1 = Outcome.ret (false, some e) ∧
    (Contains bf item c).2.log.length = i + 1 :=
  containsLoop_failed_call bf.key item bf.hashFuncs c i e h1 h2 he

/-- C12, witness: on the 16-bit filter with 3 hash functions, over the empty store whose first
call fails, `Contains` of the item `hi` returns `(false, err)` after that one call. -/
theorem contains_fails_with_store_error_witness :
    (failingAt 0 "timeout").log.length ≤ 0 ∧
    0 < (Contains (mkFilter "bloom" 16 3) [104, 105] (failingAt 0 "timeout")).2.log.length ∧
    (failingAt 0 "timeout").faults 0 = some "timeout" ∧
    (Contains (mkFilter "bloom" 16 3) [104, 105] (failingAt 0 "timeout")).1 =
      Outcome.ret (false, some "timeout") ∧
    (Contains (mkFilter "bloom" 16 3) [104, 105] (failingAt 0 "timeout")).2.log.length = 0 + 1 :=
  ⟨by decide, by decide, rfl,
    contains_fails_with_store_error (mkFilter "bloom" 16 3) [104, 105] (failingAt 0 "timeout") 0
      "timeout" (by decide) (by decide) rfl⟩

/-- C13: read over the reals, `calculateOptimalSize 1000 0.01` is the ceiling of
`-(1000 * ln 0.01) / (ln 2) ^ 2`, and that is 9586. -/
theorem optimal_size_of_test_parameters :
    calculateOptimalSize 1000 0.01 = Int.ceil (-(1000 * Real.log 0.01) / Real.log 2 ^ 2) ∧
    Int.ceil (-(1000 * Real.log 0.01) / Real.log 2 ^ 2) = 9586 := by
  have h1 : (0.6931471803 : ℝ) < Real.log 2 := Real.log_two_gt_d9
  have h2 : Real.log 2 < (0.6931471808 : ℝ) := Real.log_two_lt_d9
  obtain ⟨h3, h4⟩ := log_ten_bounds
  have hpos : (0 : ℝ) < Real.log 2 ^ 2 := by positivity
  have hsq1 : (0.6931471803 : ℝ) ^ 2 < Real.log 2 ^ 2 := by nlinarith
  have hsq2 : Real.log 2 ^ 2 < (0.6931471808 : ℝ) ^ 2 := by nlinarith
  constructor
  · rw [calculateOptimalSize]
    congr 2
    push_cast
    ring
  · rw [log_one_hundredth, Int.ceil_eq_iff]
    constructor
    · rw [lt_div_iff₀ hpos]
      push_cast
      norm_num at hsq2 ⊢
      nlinarith
    · rw [div_le_iff₀ hpos]
      push_cast
      norm_num at hsq1 ⊢
      nlinarith

/-- C14: read over the reals, `calculateOptimalHashFunctions 1000 10000` is the ceiling of
`(10000 / 1000) * ln 2`, and that is 7. -/
theorem optimal_hash_functions_of_test_parameters :
    calculateOptimalHashFunctions 1000 10000 = Int.ceil ((10000 / 1000 : ℝ) * Real.log 2) ∧
    Int.ceil ((10000 / 1000 : ℝ) * Real.log 2) = 7 := by
  have h1 : (0.6931471803 : ℝ) < Real.log 2 := Real.log_two_gt_d9
  have h2 : Real.log 2 < (0.6931471808 : ℝ) := Real.log_two_lt_d9
  constructor
  · rw [calculateOptimalHashFunctions]
    push_cast
    rfl
  · rw [Int.ceil_eq_iff]
    constructor
    · push_cast
      norm_num at h1 ⊢
      linarith
    · push_cast
      norm_num at h2 ⊢
      linarith

/-- C16, as stated, fails: on the 16-bit filter with 3 hash functions, over a store that is
unreachable from call number 6 on, the item `hi` is added and `Contains` answers `(true, nil)`
for it; `Add` of the item `a` then stops with the error at its first set-bit call, and
`Contains` of `hi` after that returns `(false, err)`, not `true`. -/
theorem true_answer_needs_get_bit :
    (Contains (mkFilter "bloom" 16 3) [104, 105]
      (Add (mkFilter "bloom" 16 3) [104, 105] (downFrom 6 "connection refused")).2).1 =
      Outcome.ret (true, none) ∧
    (Add (mkFilter "bloom" 16 3) [97]
      (Contains (mkFilter "bloom" 16 3) [104, 105]
        (Add (mkFilter "bloom" 16 3) [104, 105] (downFrom 6 "connection refused")).2).2).1 =
      Outcome.ret (some "connection refused") ∧
    (Contains (mkFilter "bloom" 16 3) [104, 105]
      (Add (mkFilter "bloom" 16 3) [97]
        (Contains (mkFilter "bloom" 16 3) [104, 105]
          (Add (mkFilter "bloom" 16 3) [104, 105] (downFrom 6 "connection refused")).2).2).2).1 =
      Outcome.ret (false, some "connection refused") := by
  refine ⟨by decide, by decide, by decide⟩

/-- C16, amended: `Add` never turns a bit from 1 to 0, whether it returns `nil`, returns an
error after some of its set-bit calls, or panics. So in the sequence `Contains(y); Add(x);
Contains(y)` whose first answer is `(true, nil)`, the second is `(true, nil)` again provided none
of its own get-bit calls fails, and otherwise `(false, err)` with the error of the failed call,
never `(false, nil)`; and an item answered `(true, nil)` on the store before `Add(x)` is answered
`(true, nil)` on the store after it when the calls to come fail alike. -/
theorem add_keeps_true_answers (bf : Filter) (x y : List Byte) (c : Client) :
    (∀ k o, c.store.bits k o = true → (Add bf x c).2.store.bits k o = true) ∧
    (∀ before after : Client, before.store = c.store → after.store = (Add bf x c).2.store →
      (∀ i, before.faults (before.log.length + i) = after.faults (after.log.length + i)) →
      (Contains bf y before).1 = Outcome.ret (true, none) →
      (Contains bf y after).1 = Outcome.ret (true, none)) ∧
    ((Contains bf y c).1 = Outcome.ret (true, none) →
      (NoFault (Add bf x (Contains bf y c).2).2 bf.hashFuncs.length →
        (Contains bf y (Add bf x (Contains bf y c).2).2).1 = Outcome.ret (true, none)) ∧
      ((Contains bf y (Add bf x (Contains bf y c).2).2).1 = Outcome.ret (true, none) ∨
        ∃ e i, i < bf.hashFuncs.length ∧
          (Add bf x (Contains bf y c).2).2.faults
            ((Add bf x (Contains bf y c).2).2.log.length + i) = some e ∧
          (Contains bf y (Add bf x (Contains bf y c).2).2).1 = Outcome.ret (false, some e))) := by
  refine ⟨fun k o h => addLoop_mono bf.key x k o bf.hashFuncs c h, ?_, ?_⟩
  · intro before after hb ha hf h
    apply contains_true_of_bits bf y before after _ hf h
    intro o ho
    rw [ha]
    rw [hb] at ho
    exact addLoop_mono bf.key x bf.key o bf.hashFuncs c ho
  · intro h
    obtain ⟨ps, hps, _, hbits⟩ := containsLoop_true bf.key y bf.hashFuncs c h
    have hlen : bf.hashFuncs.length = ps.length := by
      simpa using congrArg List.length hps
    have hset : ∀ p ∈ ps,
        (Add bf x (Contains bf y c).2).2.store.bits bf.key (toInt64 p) = true := by
      intro p hp
      apply addLoop_mono bf.key x bf.key (toInt64 p) bf.hashFuncs
      rw [Contains, containsLoop_store]
      exact hbits p hp
    constructor
    · intro hq
      rw [Contains, containsLoop_ok bf.key y bf.hashFuncs ps _ hps (hlen ▸ hq)]
      simp only [Outcome.ret.injEq, Prod.mk.injEq, and_true, List.all_eq_true, List.mem_map]
      rintro o ⟨p, hp, rfl⟩
      exact hset p hp
    · rw [hlen]
      exact containsLoop_set bf.key y bf.hashFuncs ps _ hps hset

/-- C16, witness: on the 16-bit filter with 3 hash functions, the item `hi` is added over the
quiet empty store; then `Add` of the item `a` leaves the answer for `hi` at `(true, nil)`. -/
theorem add_keeps_true_answers_witness :
    (Contains (mkFilter "bloom" 16 3) [104, 105]
      (Add (mkFilter "bloom" 16 3) [104, 105] quietClient).2).1 = Outcome.ret (true, none) ∧
    (Contains (mkFilter "bloom" 16 3) [104, 105]
      (Add (mkFilter "bloom" 16 3) [97]
        (Contains (mkFilter "bloom" 16 3) [104, 105]
          (Add (mkFilter "bloom" 16 3) [104, 105] quietClient).2).2).2).1 =
      Outcome.ret (true, none) :=
  ⟨by decide,
    ((add_keeps_true_answers (mkFilter "bloom" 16 3) [97] [104, 105]
      (Add (mkFilter "bloom" 16 3) [104, 105] quietClient).2).2.2 (by decide)).1
      (fun _ _ => rfl)⟩

/-- C17 fails on the code for more than 256 hash functions. For `n = 1` and
`p = 2 ^ (-400)` the sizing gives 578 bits and 401 hash functions; the constructor returns that
filter, and its hash functions 0 and 256 append the same seed byte, `byte(256) = byte(0)`, and
are the same function. -/
theorem seed_bytes_repeat_after_256 :
    calculateOptimalSize 1 ((1 / 2) ^ 400) = 578 ∧
    calculateOptimalHashFunctions 1 (calculateOptimalSize 1 ((1 / 2) ^ 400)) = 401 ∧
    (NewBloomFilter 1 ((1 / 2) ^ 400) "localhost:6379" "bloom" usedClient).1 =
      Outcome.ret (some (mkFilter "bloom" 578 401), none) ∧
    toByte 256 = toByte 0 ∧
    (mkFilter "bloom" 578 401).hashFuncs[0]? = some (hashFunc 578 0) ∧
    (mkFilter "bloom" 578 401).hashFuncs[256]? = some (hashFunc 578 0) := by
  have hk : calculateOptimalHashFunctions 1 (calculateOptimalSize 1 ((1 / 2) ^ 400)) = 401 := by
    rw [calculateOptimalSize_tiny_rate, calculateOptimalHashFunctions_tiny_rate]
  refine ⟨calculateOptimalSize_tiny_rate, hk, ?_, by decide, ?_, ?_⟩
  · rw [NewBloomFilter, hk, calculateOptimalSize_tiny_rate,
      newFilter_present 578 401 "bloom" usedClient (by decide) rfl rfl (by decide)]
    rfl
  · exact mkHashFuncs_get 578 401 0 (by decide)
  · have h := mkHashFuncs_get 578 401 (0 + 256) (by decide)
    rw [hashFunc_add_256] at h
    exact h

/-- C18: let `m` and `k ≥ 0` be the sizes that the two sizing calls return, where `m` is not 0
unless `k` is 0 (with a length of 0 every hash function divides by zero). Over a store in which
the key does not exist and whose calls do not fail, the constructor returns the filter; after
`Add` of the items of any list `S` (each returning `nil`), `Contains(x)` returns `(b, nil)` where
`b` is true exactly when every position of `x` is a position of some item of `S`; and when
`k ≥ 1`, `Contains` returns `(false, nil)` for every item on the filter just created. -/
theorem membership_characterisation (m k : Int) (key : String) (c : Client) (hk : 0 ≤ k)
    (hm : toUint64 m ≠ 0 ∨ k = 0) (hfresh : c.store.present key = false) (hr : Reliable c) :
    (newFilter m k key c).1 = Outcome.ret (some (mkFilter key m k.toNat), none) ∧
    (∀ (items : List (List Byte)) (x : List Byte),
      (addAll (mkFilter key m k.toNat) items (newFilter m k key c).2).1 = Outcome.ret none ∧
      ∃ b, (Contains (mkFilter key m k.toNat) x
          (addAll (mkFilter key m k.toNat) items (newFilter m k key c).2).2).1 =
          Outcome.ret (b, none) ∧
        (b = true ↔ ∀ i, i < k.toNat →
          ∃ s ∈ items, ∃ j, j < k.toNat ∧ hashFunc m i x = hashFunc m j s)) ∧
    (1 ≤ k → ∀ x : List Byte,
      (Contains (mkFilter key m k.toNat) x (newFilter m k key c).2).1 =
        Outcome.ret (false, none)) := by
  have hcase : k.toNat = 0 ∨ toUint64 m ≠ 0 := by
    rcases hm with h | h
    · exact Or.inr h
    · exact Or.inl (by rw [h]; rfl)
  obtain ⟨h1, h2, h3, h4, _⟩ := newFilter_fresh m k key c hk hfresh (hr.noFault _)
  have hr1 : Reliable (newFilter m k key c).2 := hr.mono h2 (by rw [h3]; simp)
  refine ⟨h1, fun items x => contains_after_adds key m k.toNat hcase _ hr1 h4 items x, ?_⟩
  intro hk1 x
  obtain ⟨_, b, hb, hiff⟩ := contains_after_adds key m k.toNat hcase _ hr1 h4 [] x
  have hfalse : b = false := by
    rw [Bool.eq_false_iff]
    intro hbt
    obtain ⟨s, hs, _⟩ := hiff.mp hbt 0 (by omega)
    simp at hs
  rw [hfalse] at hb
  exact hb

/-- C18, witness: a bit-array length of 16 and 3 hash functions over the quiet empty store; on
the filter just created `Contains` returns `(false, nil)` for the item `hi`. -/
theorem membership_characterisation_witness :
    (0 : Int) ≤ 3 ∧ (toUint64 16 ≠ 0 ∨ (3 : Int) = 0) ∧
    quietClient.store.present "bloom" = false ∧ Reliable quietClient ∧ (1 : Int) ≤ 3 ∧
    (Contains (mkFilter "bloom" 16 (3 : Int).toNat) [104, 105]
      (newFilter 16 3 "bloom" quietClient).2).1 = Outcome.ret (false, none) :=
  ⟨by decide, Or.inl (by decide), rfl, fun _ => rfl, by decide,
    (membership_characterisation 16 3 "bloom" quietClient (by decide) (Or.inl (by decide)) rfl
      (fun _ => rfl)).2.2 (by decide) [104, 105]⟩

end BloomFilter
